import Mathlib

/-!
CHIP-8 interpreter core (`chip8.c`, `chip8.h`)

A shallow embedding of the interpreter core: the machine state of `struct chip8`,
`chip8_init`, `chip8_load`, `chip8_step` and `chip8_key_set_state`.

Conventions of the embedding

* `u8`, `u16` and `int` values are natural numbers (integers for `beep`); every store
  into a `u8`/`u16` object reduces modulo `2^8`/`2^16` where the C expression can
  exceed the range.
* The arrays of the struct are functions on indices.  An access whose index lies
  outside the declared array is not given a meaning: the operation stops with a
  `Fault` naming the array and the index.
* For the draw there is a second reading, `chip8_step_struct`: the one index outside
  `display` that the guards of the draw let through, `display[256]`, is given its place in
  `struct chip8`, the byte `keyboard[0]`.  Where `chip8_step` completes, both agree
  (`chip8_step_struct_of_ok`).
* `rand()` is an input of `chip8_step`.
* `DEBUG` expands to nothing (`CHIP8_DEBUG_ENABLE` is not defined).
-/

namespace Chip8

/-! ## Constants of `chip8.h` -/

@[simp] def CHIP8_DISPLAY_BUF_WIDTH : Nat := 8
@[simp] def CHIP8_DISPLAY_BUF_HEIGHT : Nat := 32
@[simp] def CHIP8_DISPLAY_BUF_SIZE : Nat := CHIP8_DISPLAY_BUF_WIDTH * CHIP8_DISPLAY_BUF_HEIGHT
@[simp] def CHIP8_DISPLAY_WIDTH : Nat := CHIP8_DISPLAY_BUF_WIDTH * 8
@[simp] def CHIP8_DISPLAY_HEIGHT : Nat := CHIP8_DISPLAY_BUF_HEIGHT
@[simp] def CHIP8_MEMORY_CAPACITY : Nat := 0x1000
@[simp] def CHIP8_KEY_DOWN : Nat := 1
@[simp] def CHIP8_KEY_UP : Nat := 0

/-! ## Machine state -/

/-- The fields of `struct chip8`, in declaration order, followed by `out`, the list of
opcodes reported on standard output by the `default:` arm of `chip8_step`. -/
structure chip8 where
  i : Nat
  pc : Nat
  v : Nat → Nat
  sp : Nat
  dt : Nat
  st : Nat
  stack : Nat → Nat
  mem : Nat → Nat
  display : Nat → Nat
  keyboard : Nat → Nat
  beep : Int
  out : List Nat

/-- An array access outside the declared bounds: which array, and the index used. -/
inductive Fault where
  | mem (idx : Int)
  | stack (idx : Int)
  | display (idx : Int)
  | keyboard (idx : Int)
  deriving DecidableEq

/-- The table `fonts[]` of `chip8.c`. -/
def fonts : List Nat := [
  0xF0, 0x90, 0x90, 0x90, 0xF0,
  0x20, 0x60, 0x20, 0x20, 0x70,
  0xF0, 0x10, 0xF0, 0x80, 0xF0,
  0xF0, 0x10, 0xF0, 0x10, 0xF0,
  0x90, 0x90, 0xF0, 0x10, 0x10,
  0xF0, 0x80, 0xF0, 0x10, 0xF0,
  0xF0, 0x80, 0xF0, 0x90, 0xF0,
  0xF0, 0x10, 0x20, 0x40, 0x40,
  0xF0, 0x90, 0xF0, 0x90, 0xF0,
  0xF0, 0x90, 0xF0, 0x10, 0xF0,
  0xF0, 0x90, 0xF0, 0x90, 0x90,
  0xE0, 0x90, 0xE0, 0x90, 0xE0,
  0xF0, 0x80, 0x80, 0x80, 0xF0,
  0xE0, 0x90, 0x90, 0x90, 0xE0,
  0xF0, 0x80, 0xF0, 0x80, 0xF0,
  0xF0, 0x80, 0xF0, 0x80, 0x80]

/-! ## `chip8_init`, `chip8_load`, `chip8_key_set_state` -/

/-- The function `chip8_init`: `memset` of the whole struct to zero, `memcpy` of the
font table to the start of memory, `pc = 0x200`. -/
def chip8_init (c8 : chip8) : chip8 :=
  { i := 0
    pc := 0x200
    v := fun _ => 0
    sp := 0
    dt := 0
    st := 0
    stack := fun _ => 0
    mem := fun a => if a < fonts.length then fonts.getD a 0 else 0
    display := fun _ => 0
    keyboard := fun _ => 0
    beep := 0
    out := c8.out }

/-- The function `chip8_load`.  The argument `file` is the content of `romfile`, or
`none` when `fopen` fails.  `flen` is the length reported by `ftell`, a `long`, so the
`size_t` sum `flen + 0x200` does not wrap.  `fread` copies the `flen` bytes to
`mem + 0x200`.  The result pairs the machine with the returned `int`. -/
def chip8_load (c8 : chip8) (file : Option (List Nat)) : chip8 × Int :=
  match file with
  | none => (c8, 0)
  | some rom =>
    let flen := rom.length
    if flen + 0x200 ≥ CHIP8_MEMORY_CAPACITY then (c8, 0)
    else
      ({ c8 with
          mem := fun a =>
            if 0x200 ≤ a ∧ a < 0x200 + flen then rom.getD (a - 0x200) 0 else c8.mem a },
       1)

/-- The function `chip8_key_set_state`: `keyboard[key] = state`, the `int` state being
converted to `u8`. -/
def chip8_key_set_state (c8 : chip8) (key state : Int) : Except Fault chip8 :=
  if key < 0 ∨ 16 ≤ key then .error (.keyboard key)
  else .ok { c8 with keyboard := Function.update c8.keyboard key.toNat (state % 256).toNat }

/-! ## `chip8_step` -/

/-- The 16-bit word fetched big-endian by the first two statements of `chip8_step`. -/
def opcode_at (c8 : chip8) : Nat :=
  ((c8.mem c8.pc <<< 8) ||| c8.mem ((c8.pc + 1) % 65536)) % 65536

/-- The timer tick of `chip8_step`:
`if (st == 1) beep = 1; if (st > 0) st--; if (dt > 0) dt--;`. -/
def tick (c8 : chip8) : chip8 :=
  { c8 with
    beep := if c8.st = 1 then 1 else c8.beep
    st := if c8.st > 0 then c8.st - 1 else c8.st
    dt := if c8.dt > 0 then c8.dt - 1 else c8.dt }

/-- The inner `switch ( opcode & 0x000F )` of `case 0x8000`.  Each arm writes `v[0xF]`
first where the source does and then reads the registers again. -/
def exec_8 (opcode x y : Nat) (c8 : chip8) : chip8 :=
  let sel := opcode &&& 0x000F
  if sel = 0x0000 then { c8 with v := Function.update c8.v x (c8.v y) }
  else if sel = 0x0001 then { c8 with v := Function.update c8.v x (c8.v x ||| c8.v y) }
  else if sel = 0x0002 then { c8 with v := Function.update c8.v x (c8.v x &&& c8.v y) }
  else if sel = 0x0003 then { c8 with v := Function.update c8.v x (c8.v x ^^^ c8.v y) }
  else if sel = 0x0004 then
    let v1 := Function.update c8.v 0xF (if 255 - c8.v x < c8.v y then 1 else 0)
    { c8 with v := Function.update v1 x ((v1 x + v1 y) % 256) }
  else if sel = 0x0005 then
    let v1 := Function.update c8.v 0xF (if c8.v y < c8.v x then 1 else 0)
    { c8 with v := Function.update v1 x ((v1 x + 256 - v1 y) % 256) }
  else if sel = 0x0006 then
    let v1 := Function.update c8.v 0xF (c8.v x &&& 0x01)
    { c8 with v := Function.update v1 x (v1 x >>> 1) }
  else if sel = 0x0007 then
    let v1 := Function.update c8.v 0xF (if c8.v x < c8.v y then 1 else 0)
    { c8 with v := Function.update v1 x ((v1 y + 256 - v1 x) % 256) }
  else if sel = 0x000E then
    let v1 := Function.update c8.v 0xF (c8.v x &&& 0x80)
    { c8 with v := Function.update v1 x ((v1 x <<< 1) % 256) }
  else c8

/-- The row loop of `case 0xD000`:
`for ( int i = 0; i < n; i++, sy++ )`, with `rows = n - i` iterations left.
The result is the display buffer and `v[0xF]`. -/
def draw_rows (mem : Nat → Nat) (I sbufx rshift lshift : Nat) :
    Nat → Nat → Nat → (Nat → Nat) → Nat → Except Fault ((Nat → Nat) × Nat)
  | 0, _, _, display, vf => .ok (display, vf)
  | rows + 1, i, sy, display, vf =>
    if CHIP8_MEMORY_CAPACITY ≤ I + i then .error (.mem (I + i)) else
    let sprite := mem (I + i)
    let sbufi := sbufx + sy * CHIP8_DISPLAY_BUF_WIDTH
    if sbufi > CHIP8_DISPLAY_BUF_SIZE then .ok (display, vf) else
    if CHIP8_DISPLAY_BUF_SIZE ≤ sbufi then .error (.display sbufi) else
    let vf1 := if display sbufi &&& (sprite >>> rshift) ≠ 0 then 1 else vf
    let display1 :=
      Function.update display sbufi ((display sbufi ^^^ (sprite >>> rshift)) % 256)
    let sbufi1 := sbufi + 1
    if sbufi1 > CHIP8_DISPLAY_BUF_SIZE then .ok (display1, vf1) else
    if CHIP8_DISPLAY_BUF_SIZE ≤ sbufi1 then .error (.display sbufi1) else
    let vf2 := if display1 sbufi1 &&& (sprite <<< lshift) ≠ 0 then 1 else vf1
    let display2 :=
      Function.update display1 sbufi1 ((display1 sbufi1 ^^^ (sprite <<< lshift)) % 256)
    draw_rows mem I sbufx rshift lshift rows (i + 1) (sy + 1) display2 vf2

/-- The arm `case 0xD000` of `chip8_step`. -/
def exec_D (x y n : Nat) (c8 : chip8) : Except Fault chip8 :=
  let sx := c8.v x % CHIP8_DISPLAY_WIDTH
  let sy := c8.v y % CHIP8_DISPLAY_HEIGHT
  let sbufx := sx / 8
  let rshift := sx % 8
  let lshift := 8 - rshift
  let n1 := if n + sy > CHIP8_DISPLAY_HEIGHT then CHIP8_DISPLAY_HEIGHT - sy else n
  match draw_rows c8.mem c8.i sbufx rshift lshift n1 0 sy c8.display 0 with
  | .error e => .error e
  | .ok (display, vf) => .ok { c8 with v := Function.update c8.v 0xF vf, display := display }

/-- The scan `for ( int i=0; i <= 0xF; i++ )` of `case 0x000A`: the first index from `i`
on whose key is down, with `left = 0x10 - i` iterations left. -/
def key_scan (keyboard : Nat → Nat) : Nat → Nat → Option Nat
  | 0, _ => none
  | left + 1, i =>
    if keyboard i = CHIP8_KEY_DOWN then some i else key_scan keyboard left (i + 1)

/-- The loop of `case 0x0055`: `mem[c8->i + i] = c8->v[i]` for `i` up to `x`, with
`left` iterations left. -/
def store_regs (v : Nat → Nat) (I : Nat) : Nat → Nat → (Nat → Nat) → Except Fault (Nat → Nat)
  | 0, _, mem => .ok mem
  | left + 1, i, mem =>
    if CHIP8_MEMORY_CAPACITY ≤ I + i then .error (.mem (I + i))
    else store_regs v I left (i + 1) (Function.update mem (I + i) (v i))

/-- The loop of `case 0x0065`: `c8->v[i] = mem[c8->i + i]` for `i` up to `x`, with
`left` iterations left. -/
def load_regs (mem : Nat → Nat) (I : Nat) : Nat → Nat → (Nat → Nat) → Except Fault (Nat → Nat)
  | 0, _, v => .ok v
  | left + 1, i, v =>
    if CHIP8_MEMORY_CAPACITY ≤ I + i then .error (.mem (I + i))
    else load_regs mem I left (i + 1) (Function.update v i (mem (I + i)))

/-- The inner `switch ( opcode & 0x00FF )` of `case 0xF000`. -/
def exec_F (opcode x : Nat) (c8 : chip8) : Except Fault chip8 :=
  let sel := opcode &&& 0x00FF
  if sel = 0x0007 then .ok { c8 with v := Function.update c8.v x c8.dt }
  else if sel = 0x000A then
    let c1 := { c8 with pc := (c8.pc + 65536 - 2) % 65536 }
    match key_scan c1.keyboard 0x10 0 with
    | some k => .ok { c1 with v := Function.update c1.v x k, pc := (c1.pc + 2) % 65536 }
    | none => .ok c1
  else if sel = 0x0015 then .ok { c8 with dt := c8.v x }
  else if sel = 0x0018 then .ok { c8 with st := c8.v x }
  else if sel = 0x001E then .ok { c8 with i := (c8.i + c8.v x) % 65536 }
  else if sel = 0x0029 then .ok { c8 with i := (c8.v x % 0x10) * 5 }
  else if sel = 0x0033 then
    if CHIP8_MEMORY_CAPACITY ≤ c8.i + 0 then .error (.mem (c8.i + 0)) else
    let m1 := Function.update c8.mem (c8.i + 0) (c8.v x / 100)
    if CHIP8_MEMORY_CAPACITY ≤ c8.i + 1 then .error (.mem (c8.i + 1)) else
    let m2 := Function.update m1 (c8.i + 1) ((c8.v x / 10) % 100)
    if CHIP8_MEMORY_CAPACITY ≤ c8.i + 2 then .error (.mem (c8.i + 2)) else
    .ok { c8 with mem := Function.update m2 (c8.i + 2) (c8.v x % 10) }
  else if sel = 0x0055 then
    match store_regs c8.v c8.i (x + 1) 0 c8.mem with
    | .error e => .error e
    | .ok mem => .ok { c8 with mem := mem }
  else if sel = 0x0065 then
    match load_regs c8.mem c8.i (x + 1) 0 c8.v with
    | .error e => .error e
    | .ok v => .ok { c8 with v := v }
  else .ok c8

/-- The `switch ( opcode & 0xF000 )` of `chip8_step`, run on the state left by the fetch
and the timer tick.  `rnd` is the value returned by `rand()`. -/
def chip8_exec (rnd opcode : Nat) (c8 : chip8) : Except Fault chip8 :=
  let byte := opcode &&& 0xFF
  let word := opcode &&& 0xFFF
  let x := (opcode >>> 8) &&& 0xF
  let y := (opcode >>> 4) &&& 0xF
  let n := (opcode >>> 0) &&& 0xF
  let sel := opcode &&& 0xF000
  if sel = 0x0000 then
    if opcode &&& 0x0FFF = 0x00E0 then .ok { c8 with display := fun _ => 0 }
    else if opcode &&& 0x0FFF = 0x00EE then
      let sp1 := (c8.sp + 256 - 1) % 256
      if 16 ≤ sp1 then .error (.stack sp1)
      else .ok { c8 with sp := sp1, pc := c8.stack sp1 }
    else .ok { c8 with pc := word }
  else if sel = 0x1000 then .ok { c8 with pc := word }
  else if sel = 0x2000 then
    if 16 ≤ c8.sp then .error (.stack c8.sp)
    else .ok { c8 with
                stack := Function.update c8.stack c8.sp c8.pc
                sp := (c8.sp + 1) % 256
                pc := word }
  else if sel = 0x3000 then
    .ok (if c8.v x = byte then { c8 with pc := (c8.pc + 2) % 65536 } else c8)
  else if sel = 0x4000 then
    .ok (if c8.v x ≠ byte then { c8 with pc := (c8.pc + 2) % 65536 } else c8)
  else if sel = 0x5000 then
    .ok (if c8.v x = c8.v y then { c8 with pc := (c8.pc + 2) % 65536 } else c8)
  else if sel = 0x6000 then .ok { c8 with v := Function.update c8.v x byte }
  else if sel = 0x7000 then .ok { c8 with v := Function.update c8.v x ((c8.v x + byte) % 256) }
  else if sel = 0x8000 then .ok (exec_8 opcode x y c8)
  else if sel = 0x9000 then
    .ok (if c8.v x ≠ c8.v y then { c8 with pc := (c8.pc + 2) % 65536 } else c8)
  else if sel = 0xA000 then .ok { c8 with i := word }
  else if sel = 0xB000 then .ok { c8 with pc := (word + c8.v 0) % 65536 }
  else if sel = 0xC000 then .ok { c8 with v := Function.update c8.v x (rnd % 256 &&& byte) }
  else if sel = 0xD000 then exec_D x y n c8
  else if sel = 0xE000 then
    if opcode &&& 0x00FF = 0x009E then
      if 16 ≤ c8.v x then .error (.keyboard (c8.v x))
      else .ok (if c8.keyboard (c8.v x) = CHIP8_KEY_DOWN
                then { c8 with pc := (c8.pc + 2) % 65536 } else c8)
    else if opcode &&& 0x00FF = 0x00A1 then
      if 16 ≤ c8.v x then .error (.keyboard (c8.v x))
      else .ok (if c8.keyboard (c8.v x) ≠ CHIP8_KEY_DOWN
                then { c8 with pc := (c8.pc + 2) % 65536 } else c8)
    else .ok c8
  else if sel = 0xF000 then exec_F opcode x c8
  else .ok { c8 with out := c8.out ++ [opcode] }

/-- The function `chip8_step`: fetch two bytes at `pc` (each `mem[c8->pc++]`), tick the
timers, then decode and execute. -/
def chip8_step (rnd : Nat) (c8 : chip8) : Except Fault chip8 :=
  if CHIP8_MEMORY_CAPACITY ≤ c8.pc then .error (.mem c8.pc) else
  let pc1 := (c8.pc + 1) % 65536
  if CHIP8_MEMORY_CAPACITY ≤ pc1 then .error (.mem pc1) else
  let opcode := opcode_at c8
  let pc2 := (pc1 + 1) % 65536
  chip8_exec rnd opcode (tick { c8 with pc := pc2 })

/-- Repeated calls of `chip8_step`, one per element of `rnds` (the successive values of
`rand()`), stopping at the first fault. -/
def chip8_run : List Nat → chip8 → Except Fault chip8
  | [], c8 => .ok c8
  | rnd :: rnds, c8 =>
    match chip8_step rnd c8 with
    | .error e => .error e
    | .ok c1 => chip8_run rnds c1

/-! ## The draw on the bytes of the struct -/

/-- The bytes of `struct chip8` counted from the start of `display`: the member
`u8 display[CHIP8_DISPLAY_BUF_WIDTH * CHIP8_DISPLAY_BUF_HEIGHT]` is followed directly by
`u8 keyboard[16]` (`chip8.h`; both are arrays of `u8`, so nothing lies between them), hence
byte `256 + k` is `keyboard[k]`. -/
def display_bytes (display keyboard : Nat → Nat) : Nat → Nat :=
  fun j => if j < CHIP8_DISPLAY_BUF_SIZE then display j else keyboard (j - CHIP8_DISPLAY_BUF_SIZE)

/-- The row loop of `case 0xD000` on the bytes of the struct (`display_bytes`): the same
statements as `draw_rows`, with `display[sbufi]` read as byte `sbufi` from the start of
`display`.  The guards `sbufi > CHIP8_DISPLAY_BUF_SIZE` let the index `256` through, which
is `keyboard[0]`; no larger index passes them. -/
def draw_rows_struct (mem : Nat → Nat) (I sbufx rshift lshift : Nat) :
    Nat → Nat → Nat → (Nat → Nat) → Nat → Except Fault ((Nat → Nat) × Nat)
  | 0, _, _, bytes, vf => .ok (bytes, vf)
  | rows + 1, i, sy, bytes, vf =>
    if CHIP8_MEMORY_CAPACITY ≤ I + i then .error (.mem (I + i)) else
    let sprite := mem (I + i)
    let sbufi := sbufx + sy * CHIP8_DISPLAY_BUF_WIDTH
    if sbufi > CHIP8_DISPLAY_BUF_SIZE then .ok (bytes, vf) else
    let vf1 := if bytes sbufi &&& (sprite >>> rshift) ≠ 0 then 1 else vf
    let bytes1 :=
      Function.update bytes sbufi ((bytes sbufi ^^^ (sprite >>> rshift)) % 256)
    let sbufi1 := sbufi + 1
    if sbufi1 > CHIP8_DISPLAY_BUF_SIZE then .ok (bytes1, vf1) else
    let vf2 := if bytes1 sbufi1 &&& (sprite <<< lshift) ≠ 0 then 1 else vf1
    let bytes2 :=
      Function.update bytes1 sbufi1 ((bytes1 sbufi1 ^^^ (sprite <<< lshift)) % 256)
    draw_rows_struct mem I sbufx rshift lshift rows (i + 1) (sy + 1) bytes2 vf2

/-- The arm `case 0xD000` of `chip8_step` on the bytes of the struct: as `exec_D`, the row
loop being `draw_rows_struct`; the bytes it leaves are read back as `display` and
`keyboard`. -/
def exec_D_struct (x y n : Nat) (c8 : chip8) : Except Fault chip8 :=
  let sx := c8.v x % CHIP8_DISPLAY_WIDTH
  let sy := c8.v y % CHIP8_DISPLAY_HEIGHT
  let sbufx := sx / 8
  let rshift := sx % 8
  let lshift := 8 - rshift
  let n1 := if n + sy > CHIP8_DISPLAY_HEIGHT then CHIP8_DISPLAY_HEIGHT - sy else n
  match draw_rows_struct c8.mem c8.i sbufx rshift lshift n1 0 sy
      (display_bytes c8.display c8.keyboard) 0 with
  | .error e => .error e
  | .ok (bytes, vf) =>
    .ok { c8 with
          v := Function.update c8.v 0xF vf
          display := fun j => if j < CHIP8_DISPLAY_BUF_SIZE then bytes j else c8.display j
          keyboard := fun k => bytes (CHIP8_DISPLAY_BUF_SIZE + k) }

/-- The function `chip8_step` with the draw run on the bytes of the struct: the fetch, the
tick and every other arm are those of `chip8_step`; `case 0xD000` is `exec_D_struct`. -/
def chip8_step_struct (rnd : Nat) (c8 : chip8) : Except Fault chip8 :=
  if CHIP8_MEMORY_CAPACITY ≤ c8.pc then .error (.mem c8.pc) else
  let pc1 := (c8.pc + 1) % 65536
  if CHIP8_MEMORY_CAPACITY ≤ pc1 then .error (.mem pc1) else
  let opcode := opcode_at c8
  let pc2 := (pc1 + 1) % 65536
  if opcode &&& 0xF000 = 0xD000 then
    exec_D_struct ((opcode >>> 8) &&& 0xF) ((opcode >>> 4) &&& 0xF) ((opcode >>> 0) &&& 0xF)
      (tick { c8 with pc := pc2 })
  else chip8_exec rnd opcode (tick { c8 with pc := pc2 })

/-! ## Auxiliary definitions used by the statements -/

/-- The result `r` is a fault, or a state satisfying `P`. -/
def okThen (r : Except Fault chip8) (P : chip8 → Prop) : Prop := ∀ c', r = .ok c' → P c'

/-- The word `opcode` reaches the arm `case 0x0015` of `case 0xF000` (`LD DT, Vx`), the only
statement of `chip8_step` after the tick that assigns `dt`. -/
def is_Fx15 (opcode : Nat) : Bool :=
  opcode &&& 0xF000 == 0xF000 && opcode &&& 0x00FF == 0x0015

/-- None of the instructions executed by `chip8_run rnds c8` is `Fx15`. -/
def no_dt_write : List Nat → chip8 → Bool
  | [], _ => true
  | rnd :: rnds, c8 =>
    !is_Fx15 (opcode_at c8) &&
      (match chip8_step rnd c8 with
       | .ok c1 => no_dt_write rnds c1
       | .error _ => true)

/-- One iteration of the row loop of `case 0xD000` on the display, both target bytes in
bounds: the first byte at `sbufi`, the second at `sbufi + 1`. -/
def row_display (sprite sbufi rshift lshift : Nat) (d : Nat → Nat) : Nat → Nat :=
  fun j =>
    if j = sbufi + 1 then (d (sbufi + 1) ^^^ (sprite <<< lshift)) % 256
    else if j = sbufi then (d sbufi ^^^ (sprite >>> rshift)) % 256
    else d j

/-- One iteration of the row loop of `case 0xD000` on the collision flag. -/
def row_vf (sprite sbufi rshift lshift : Nat) (d : Nat → Nat) (vf : Nat) : Nat :=
  if d sbufi &&& (sprite >>> rshift) ≠ 0 ∨ d (sbufi + 1) &&& (sprite <<< lshift) ≠ 0 then 1
  else vf

/-- Pixel `p` of the packed display, `p = 64 * row + col`: bit `7 - p % 8` of byte `p / 8`,
as `main.c` expands the buffer (`pixels[pi + k] = display[i] & (0x80 >> k)`). -/
def pixel (display : Nat → Nat) (p : Nat) : Bool := (display (p / 8)).testBit (7 - p % 8)

/-- The word `opcode` reaches the arm `case 0x0018` of `case 0xF000` (`LD ST, Vx`), the only
statement of `chip8_step` after the tick that assigns `st`. -/
def is_Fx18 (opcode : Nat) : Bool :=
  opcode &&& 0xF000 == 0xF000 && opcode &&& 0x00FF == 0x0018

/-- The states the driver can bring the machine to with every array access inside its array:
`chip8_init`, then `chip8_load` of a file, then any sequence of completed `chip8_step` and
`chip8_key_set_state` calls (the setter completes for the keys `0..15`). -/
inductive Reachable : chip8 → Prop
  | boot (c0 : chip8) (file : Option (List Nat)) :
      Reachable (chip8_load (chip8_init c0) file).1
  | step (rnd : Nat) (s s' : chip8) :
      Reachable s → chip8_step rnd s = .ok s' → Reachable s'
  | key (key state : Int) (s s' : chip8) :
      Reachable s → chip8_key_set_state s key state = .ok s' → Reachable s'

/-- The program counter, the index register and every stack slot hold 16-bit values. -/
def wide16 (c8 : chip8) : Prop :=
  c8.pc < 65536 ∧ c8.i < 65536 ∧ ∀ k, c8.stack k < 65536

/-- Every state of the run `chip8_run rnds c8` from which a step is made satisfies `p`. -/
def along (p : chip8 → Bool) : List Nat → chip8 → Bool
  | [], _ => true
  | rnd :: rnds, c8 =>
    p c8 &&
      (match chip8_step rnd c8 with
       | .ok c1 => along p rnds c1
       | .error _ => true)

/-- The address a jump instruction stores in `pc` is even: `nnn` for `0nnn` (other than `00E0`
and `00EE`), `1nnn` and `2nnn`, and `nnn + V0` for `Bnnn`; other words impose nothing. -/
def jump_even (opcode v0 : Nat) : Bool :=
  let sel := opcode &&& 0xF000
  let word := opcode &&& 0xFFF
  if sel = 0x0000 then word == 0x00E0 || word == 0x00EE || word % 2 == 0
  else if sel = 0x1000 ∨ sel = 0x2000 then word % 2 == 0
  else if sel = 0xB000 then (word + v0) % 2 == 0
  else true

/-- The program counter and every stack slot are even. -/
def even_pc (c8 : chip8) : Prop :=
  c8.pc % 2 = 0 ∧ ∀ k, c8.stack k % 2 = 0

/-- The word `opcode`, executed with index register `I`, is not an `Fx33` or `Fx55` with
`I < 0x050`: these are the two arms of `chip8_step` that store into `mem`. -/
def font_safe (opcode I : Nat) : Bool :=
  if opcode &&& 0xF000 = 0xF000 ∧ (opcode &&& 0x00FF = 0x0033 ∨ opcode &&& 0x00FF = 0x0055)
  then decide (0x50 ≤ I) else true

/-! ## Concrete machines used as witnesses and counterexamples -/

/-- A struct content before `chip8_init`: every byte zero. -/
def blank : chip8 :=
  { i := 0, pc := 0, v := fun _ => 0, sp := 0, dt := 0, st := 0, stack := fun _ => 0,
    mem := fun _ => 0, display := fun _ => 0, keyboard := fun _ => 0, beep := 0, out := [] }

/-- The machine after `chip8_init` and `chip8_load` of the ROM `rom`. -/
def boot (rom : List Nat) : chip8 := (chip8_load (chip8_init blank) (some rom)).1

/-- `ADD V1, V2` at `0x200` with `V1 = 200`, `V2 = 100`. -/
def add_state : chip8 :=
  { boot [0x81, 0x24] with v := fun k => if k = 1 then 200 else if k = 2 then 100 else 0 }

/-- The ROM `LD V0, 60; LD V1, 31; LD I, 0x20A; DRW V0, V1, 1; DRW V0, V1, 1` followed by
the sprite byte `0xFF`. -/
def last_byte_rom : List Nat :=
  [0x60, 0x3C, 0x61, 0x1F, 0xA2, 0x0A, 0xD0, 0x11, 0xD0, 0x11, 0xFF]

/-- The machine three steps into `last_byte_rom`: the two draws are next, with the origin
`(V0, V1) = (60, 31)` in the last byte column of the last row. -/
def last_byte_state : chip8 :=
  { boot last_byte_rom with
    pc := 0x206
    i := 0x20A
    v := Function.update (Function.update (fun _ => 0) 0 0x3C) 1 0x1F }

/-- The ROM `LD I, 0x208; DRW V0, V0, 1; DRW V0, V0, 1; DRW V0, V0, 1` followed by the
sprite byte `0x80`: the first draw lights pixel `(0, 0)`, the other two are the pair of
draws under test. -/
def lit_rom : List Nat := [0xA2, 0x08, 0xD0, 0x01, 0xD0, 0x01, 0xD0, 0x01, 0x80]

/-- Two `DRW V0, V1, 1` at `0x200`, the sprite byte `0xFF` at `I = 0x204`, the origin
`(60, 5)` and a dark display. -/
def dark_state : chip8 :=
  { boot [0xD0, 0x11, 0xD0, 0x11, 0xFF] with
    i := 0x204
    v := fun k => if k = 0 then 60 else if k = 1 then 5 else 0 }

/-- `CALL 0x204` at `0x200` and `RET` at `0x204`. -/
def call_state : chip8 := boot [0x22, 0x04, 0x00, 0x00, 0x00, 0xEE]

/-- `LD V1, K` at `0x200` with key `3` down. -/
def key_state : chip8 :=
  { boot [0xF1, 0x0A] with keyboard := fun k => if k = 3 then 1 else 0 }

/-- `JP 0x200` at `0x200` (a loop on itself) with the delay timer at `10`. -/
def spin10 : chip8 := { boot [0x12, 0x00] with dt := 10 }

/-- `CLS` at `0x200` with every pixel of the display lit. -/
def cls_state : chip8 := { boot [0x00, 0xE0] with display := fun _ => 0xFF }

/-- The ROM `LD V0, 56; LD V1, 30; LD I, 0x208; DRW V0, V1, 2` followed by two sprite bytes. -/
def past_rom : List Nat := [0x60, 0x38, 0x61, 0x1E, 0xA2, 0x08, 0xD0, 0x12, 0xFF, 0xFF]

/-- The machine three steps into `past_rom`: the draw is next, its two rows are rows 30 and 31
and its first byte column is the last one. -/
def past_state : chip8 :=
  { boot past_rom with
    pc := 0x206
    i := 0x208
    v := Function.update (Function.update (fun _ => 0) 0 0x38) 1 0x1E }

/-- `JP 0x200` at `0x200` with the sound timer at `1`. -/
def buzz_state : chip8 := { boot [0x12, 0x00] with st := 1 }

/-- `ADD V1, VF` at `0x200` with `V1 = 200`, `VF = 100`. -/
def carry_state : chip8 :=
  { boot [0x81, 0xF4] with v := fun k => if k = 1 then 200 else if k = 15 then 100 else 0 }

/-- The ROM `LD V0, 60; LD I, 0x206; DRW V0, V1, 1` followed by the sprite byte `0x0F`. -/
def over_rom : List Nat := [0x60, 0x3C, 0xA2, 0x06, 0xD0, 0x11, 0x0F]

/-- The machine two steps into `over_rom`: the draw is next, at the origin `(60, 0)`, so the
four set bits of the sprite row belong to the columns `64..67`. -/
def over_state : chip8 :=
  { boot over_rom with
    pc := 0x204
    i := 0x206
    v := Function.update (fun _ => 0) 0 0x3C }

/-- The ROM `LD V0, 56; LD V1, 31; LD I, 0x208; DRW V0, V1, 1` followed by the sprite byte
`0xFF`. -/
def corner_rom : List Nat := [0x60, 0x38, 0x61, 0x1F, 0xA2, 0x08, 0xD0, 0x11, 0xFF]

/-- The machine three steps into `corner_rom`: the draw is next, at the origin `(56, 31)`. -/
def corner_state : chip8 :=
  { boot corner_rom with
    pc := 0x206
    i := 0x208
    v := Function.update (Function.update (fun _ => 0) 0 0x38) 1 0x1F }

/-! ## Decoding -/

theorem and_F000 (op : Nat) : op &&& 0xF000 = 4096 * ((op / 4096) % 16) := by
  apply Nat.eq_of_testBit_eq
  intro j
  have e1 : (0xF000 : Nat) = 2 ^ 12 * (2 ^ 4 - 1) := by norm_num
  have e2 : (4096 : Nat) = 2 ^ 12 := by norm_num
  have e3 : (16 : Nat) = 2 ^ 4 := by norm_num
  rw [e1, e2, e3, Nat.testBit_and, Nat.testBit_mul_pow_two, Nat.testBit_mul_pow_two,
    Nat.testBit_two_pow_sub_one, Nat.testBit_mod_two_pow, ← Nat.shiftRight_eq_div_pow,
    Nat.testBit_shiftRight]
  by_cases h : 12 ≤ j
  · have : 12 + (j - 12) = j := by omega
    simp [h, this, Bool.and_comm]
  · simp [h]

theorem and_FFF (op : Nat) : op &&& 0xFFF = op % 4096 :=
  Nat.and_pow_two_sub_one_eq_mod op 12
theorem and_FF (op : Nat) : op &&& 0xFF = op % 256 :=
  Nat.and_pow_two_sub_one_eq_mod op 8
theorem and_F (op : Nat) : op &&& 0xF = op % 16 :=
  Nat.and_pow_two_sub_one_eq_mod op 4

/-- Field extraction of `chip8_step` on the word with nibbles `a x y n`. -/
theorem decode_fields (a x y n : Nat) (ha : a < 16) (hx : x < 16) (hy : y < 16) (hn : n < 16) :
    (4096 * a + 256 * x + 16 * y + n) &&& 0xF000 = 4096 * a ∧
    (4096 * a + 256 * x + 16 * y + n) &&& 0xFFF = 256 * x + 16 * y + n ∧
    (4096 * a + 256 * x + 16 * y + n) &&& 0xFF = 16 * y + n ∧
    (4096 * a + 256 * x + 16 * y + n) &&& 0xF = n ∧
    ((4096 * a + 256 * x + 16 * y + n) >>> 8) &&& 0xF = x ∧
    ((4096 * a + 256 * x + 16 * y + n) >>> 4) &&& 0xF = y := by
  simp only [and_F000, and_FFF, and_FF, and_F, Nat.shiftRight_eq_div_pow]
  refine ⟨?_, ?_, ?_, ?_, ?_, ?_⟩ <;> omega

/-- With both instruction bytes in memory, `chip8_step` is fetch, tick, execute. -/
theorem chip8_step_eq (rnd : Nat) (s : chip8) (hpc : s.pc + 1 < CHIP8_MEMORY_CAPACITY) :
    chip8_step rnd s = chip8_exec rnd (opcode_at s) (tick { s with pc := s.pc + 2 }) := by
  simp only [CHIP8_MEMORY_CAPACITY] at hpc
  have h1 : (s.pc + 1) % 65536 = s.pc + 1 := by omega
  have h2 : (s.pc + 1 + 1) % 65536 = s.pc + 2 := by omega
  have h3 : ¬ 4096 ≤ s.pc := by omega
  have h4 : ¬ 4096 ≤ s.pc + 1 := by omega
  simp [chip8_step, h1, h2, h3, h4]

theorem chip8_exec_8 (rnd op : Nat) (c : chip8) (h : op &&& 0xF000 = 0x8000) :
    chip8_exec rnd op c = .ok (exec_8 op ((op >>> 8) &&& 0xF) ((op >>> 4) &&& 0xF) c) := by
  simp [chip8_exec, h]

theorem chip8_exec_F (rnd op : Nat) (c : chip8) (h : op &&& 0xF000 = 0xF000) :
    chip8_exec rnd op c = exec_F op ((op >>> 8) &&& 0xF) c := by
  simp [chip8_exec, h]

theorem chip8_exec_D (rnd op : Nat) (c : chip8) (h : op &&& 0xF000 = 0xD000) :
    chip8_exec rnd op c =
      exec_D ((op >>> 8) &&& 0xF) ((op >>> 4) &&& 0xF) ((op >>> 0) &&& 0xF) c := by
  simp [chip8_exec, h]

/-! ## Key wait -/

theorem key_scan_none (kb : Nat → Nat) (n i : Nat)
    (h : ∀ k, i ≤ k → k < i + n → kb k ≠ CHIP8_KEY_DOWN) : key_scan kb n i = none := by
  induction n generalizing i with
  | zero => rfl
  | succ n ih =>
    have h0 := h i (le_refl _) (by omega)
    simp only [key_scan, h0, if_false]
    exact ih (i + 1) (fun k hk1 hk2 => h k (by omega) (by omega))

theorem key_scan_first (kb : Nat → Nat) (n i k : Nat) (hk1 : i ≤ k) (hk2 : k < i + n)
    (hd : kb k = CHIP8_KEY_DOWN) (h : ∀ j, i ≤ j → j < k → kb j ≠ CHIP8_KEY_DOWN) :
    key_scan kb n i = some k := by
  induction n generalizing i with
  | zero => omega
  | succ n ih =>
    by_cases hik : i = k
    · subst hik
      simp [key_scan, hd]
    · have h0 := h i (le_refl _) (by omega)
      simp only [key_scan, h0, if_false]
      exact ih (i + 1) (by omega) (by omega) (fun j hj1 hj2 => h j (by omega) hj2)

theorem exec_F_0A_none (op x : Nat) (c : chip8) (h : op &&& 0xFF = 0x0A)
    (hk : key_scan c.keyboard 0x10 0 = none) :
    exec_F op x c = .ok { c with pc := (c.pc + 65536 - 2) % 65536 } := by
  simp [exec_F, h, hk]

theorem exec_F_0A_some (op x k : Nat) (c : chip8) (h : op &&& 0xFF = 0x0A)
    (hk : key_scan c.keyboard 0x10 0 = some k) :
    exec_F op x c = .ok { c with v := Function.update c.v x k,
                                 pc := ((c.pc + 65536 - 2) % 65536 + 2) % 65536 } := by
  simp [exec_F, h, hk]

theorem key_wait_idle_step (rnd : Nat) (s : chip8) (x : Nat) (hx : x < 16)
    (hpc : s.pc + 1 < CHIP8_MEMORY_CAPACITY) (hop : opcode_at s = 0xF00A + 256 * x)
    (hup : ∀ k, k < 16 → s.keyboard k ≠ CHIP8_KEY_DOWN) :
    chip8_step rnd s = .ok (tick s) := by
  obtain ⟨d1, -, d3, -, d5, -⟩ :=
    decode_fields 15 x 0 10 (by omega) (by omega) (by omega) (by omega)
  have e : 4096 * 15 + 256 * x + 16 * 0 + 10 = opcode_at s := by omega
  rw [e] at d1 d3 d5
  have hs : key_scan (tick { s with pc := s.pc + 2 }).keyboard 0x10 0 = none :=
    key_scan_none _ _ _ (fun k _ hk => hup k (by omega))
  simp only [CHIP8_MEMORY_CAPACITY] at hpc
  rw [chip8_step_eq rnd s (by simpa using hpc), chip8_exec_F _ _ _ d1,
    exec_F_0A_none _ _ _ d3 hs]
  have : (s.pc + 2 + 65536 - 2) % 65536 = s.pc := by omega
  simp only [tick, this]

/-! ## Delay timer -/

theorem okThen_ok (c : chip8) (P : chip8 → Prop) : okThen (.ok c) P ↔ P c := by
  simp [okThen]

theorem okThen_error (e : Fault) (P : chip8 → Prop) : okThen (.error e) P ↔ True := by
  simp [okThen]

theorem okThen_ite (p : Prop) [Decidable p] (a b : Except Fault chip8) (P : chip8 → Prop) :
    okThen (if p then a else b) P ↔ if p then okThen a P else okThen b P := by
  split <;> rfl

theorem exec_8_dt (op x y : Nat) (c : chip8) : (exec_8 op x y c).dt = c.dt := by
  simp only [exec_8, apply_ite chip8.dt, ite_self]

theorem exec_D_dt (x y n : Nat) (c : chip8) : okThen (exec_D x y n c) (fun c' => c'.dt = c.dt) := by
  intro c' h
  simp only [exec_D] at h
  split at h
  · exact absurd h (by simp)
  · simp only [Except.ok.injEq] at h
    subst h
    rfl

theorem exec_F_dt (op x : Nat) (c : chip8) (hne : op &&& 0x00FF ≠ 0x0015) :
    okThen (exec_F op x c) (fun c' => c'.dt = c.dt) := by
  simp only [exec_F, okThen_ite, okThen_ok, okThen_error, ite_self, hne,
    if_false]
  cases key_scan c.keyboard 16 0 <;> cases store_regs c.v c.i (x + 1) 0 c.mem <;>
    cases load_regs c.mem c.i (x + 1) 0 c.v <;>
    simp only [okThen_ok, okThen_error, ite_self]

theorem chip8_exec_dt (rnd op : Nat) (c : chip8) (hne : is_Fx15 op = false) :
    okThen (chip8_exec rnd op c) (fun c' => c'.dt = c.dt) := by
  by_cases hF : op &&& 0xF000 = 0xF000
  · have hb : op &&& 0x00FF ≠ 0x0015 := by
      intro hb
      simp [is_Fx15, hF, hb] at hne
    have := exec_F_dt op ((op >>> 8) &&& 0xF) c hb
    simpa [chip8_exec, hF] using this
  · simp only [chip8_exec, okThen_ite, okThen_ok, okThen_error, ite_self,
      hF, if_false, apply_ite chip8.dt, exec_8_dt, exec_D_dt]

theorem chip8_step_dt (rnd : Nat) (s s' : chip8) (h : chip8_step rnd s = .ok s')
    (hne : is_Fx15 (opcode_at s) = false) : s'.dt = s.dt - 1 := by
  simp only [chip8_step] at h
  split at h
  · exact absurd h (by simp)
  · split at h
    · exact absurd h (by simp)
    · rw [chip8_exec_dt _ _ _ hne _ h]
      simp only [tick]
      split_ifs <;> omega

theorem chip8_run_dt (rnds : List Nat) (s s' : chip8) (hrun : chip8_run rnds s = .ok s')
    (hno : no_dt_write rnds s = true) : s'.dt = s.dt - rnds.length := by
  induction rnds generalizing s with
  | nil =>
    simp only [chip8_run, Except.ok.injEq] at hrun
    subst hrun
    simp
  | cons r rs ih =>
    simp only [chip8_run] at hrun
    simp only [no_dt_write, Bool.and_eq_true, Bool.not_eq_true'] at hno
    cases hst : chip8_step r s with
    | error e => rw [hst] at hrun; exact absurd hrun (by simp)
    | ok s1 =>
      rw [hst] at hrun
      have h1 := hno.2
      rw [hst] at h1
      rw [ih s1 hrun h1, chip8_step_dt r s s1 hst hno.1, List.length_cons]
      omega

/-! ## Sprite drawing -/

theorem draw_rows_succ (mem : Nat → Nat) (I sbufx rshift lshift rows i sy : Nat)
    (d : Nat → Nat) (vf : Nat)
    (h1 : I + i < 4096) (h2 : sbufx + sy * 8 + 1 < 256) :
    draw_rows mem I sbufx rshift lshift (rows + 1) i sy d vf =
      draw_rows mem I sbufx rshift lshift rows (i + 1) (sy + 1)
        (row_display (mem (I + i)) (sbufx + sy * 8) rshift lshift d)
        (row_vf (mem (I + i)) (sbufx + sy * 8) rshift lshift d vf) := by
  have c1 : ¬ 4096 ≤ I + i := by omega
  have c2 : ¬ sbufx + sy * 8 > 256 := by omega
  have c3 : ¬ 256 ≤ sbufx + sy * 8 := by omega
  have c4 : ¬ sbufx + sy * 8 + 1 > 256 := by omega
  have c5 : ¬ 256 ≤ sbufx + sy * 8 + 1 := by omega
  have c6 : sbufx + sy * 8 + 1 ≠ sbufx + sy * 8 := by omega
  have ed : (Function.update (Function.update d (sbufx + sy * 8)
        ((d (sbufx + sy * 8) ^^^ mem (I + i) >>> rshift) % 256)) (sbufx + sy * 8 + 1)
        ((d (sbufx + sy * 8 + 1) ^^^ mem (I + i) <<< lshift) % 256)) =
      row_display (mem (I + i)) (sbufx + sy * 8) rshift lshift d := by
    funext j
    simp only [row_display, Function.update_apply]
  have ev : (if d (sbufx + sy * 8 + 1) &&& mem (I + i) <<< lshift ≠ 0 then 1
        else if d (sbufx + sy * 8) &&& mem (I + i) >>> rshift ≠ 0 then 1 else vf) =
      row_vf (mem (I + i)) (sbufx + sy * 8) rshift lshift d vf := by
    simp only [row_vf]
    split_ifs <;> simp_all
  simp only [draw_rows, CHIP8_MEMORY_CAPACITY, CHIP8_DISPLAY_BUF_SIZE, CHIP8_DISPLAY_BUF_WIDTH,
    CHIP8_DISPLAY_BUF_HEIGHT, Nat.reduceMul, c1, c2, c3, c4, c5, if_false,
    Function.update_noteq c6, ed, ev]

theorem xor_mod_256_left (a b : Nat) : (a % 256 ^^^ b) % 256 = (a ^^^ b) % 256 := by
  apply Nat.eq_of_testBit_eq
  intro j
  have e : (256 : Nat) = 2 ^ 8 := by norm_num
  simp only [e, Nat.testBit_mod_two_pow, Nat.testBit_xor]
  by_cases h : j < 8 <;> simp [h]

theorem xor_twice_mod_256 (a b : Nat) (ha : a < 256) :
    ((a ^^^ b) % 256 ^^^ b) % 256 = a := by
  rw [xor_mod_256_left, Nat.xor_assoc, Nat.xor_self, Nat.xor_zero]
  omega

/-- The row loop of the draw, when every row lies in the buffer: it completes, changes
only the two bytes of each row, XORs the two halves of the sprite row into them, and
raises the flag when a half overlaps a set bit. -/
theorem draw_rows_spec (mem : Nat → Nat) (I sbufx rshift lshift : Nat) (rows : Nat) :
    ∀ (i sy : Nat) (d : Nat → Nat) (vf : Nat),
      sy + rows ≤ 32 → I + i + rows ≤ 4096 → sbufx ≤ 7 → (sbufx < 7 ∨ sy + rows ≤ 31) →
      ∃ d' vf', draw_rows mem I sbufx rshift lshift rows i sy d vf = .ok (d', vf') ∧
        (∀ j, (∀ r, r < rows → j ≠ sbufx + (sy + r) * 8 ∧ j ≠ sbufx + (sy + r) * 8 + 1) →
          d' j = d j) ∧
        (∀ r, r < rows →
          d' (sbufx + (sy + r) * 8) =
            (d (sbufx + (sy + r) * 8) ^^^ (mem (I + i + r) >>> rshift)) % 256 ∧
          d' (sbufx + (sy + r) * 8 + 1) =
            (d (sbufx + (sy + r) * 8 + 1) ^^^ (mem (I + i + r) <<< lshift)) % 256) ∧
        (vf = 1 → vf' = 1) ∧
        ((∃ r, r < rows ∧
            (d (sbufx + (sy + r) * 8) &&& (mem (I + i + r) >>> rshift) ≠ 0 ∨
             d (sbufx + (sy + r) * 8 + 1) &&& (mem (I + i + r) <<< lshift) ≠ 0)) →
          vf' = 1) := by
  induction rows with
  | zero =>
    intro i sy d vf _ _ _ _
    refine ⟨d, vf, rfl, fun _ _ => rfl, fun r hr => absurd hr (by omega), id, ?_⟩
    rintro ⟨r, hr, -⟩
    omega
  | succ rows ih =>
    intro i sy d vf hrow hmem hb hin
    obtain ⟨d', vf', hrun, hframe, hrows, hmono, hcol⟩ :=
      ih (i + 1) (sy + 1)
        (row_display (mem (I + i)) (sbufx + sy * 8) rshift lshift d)
        (row_vf (mem (I + i)) (sbufx + sy * 8) rshift lshift d vf)
        (by omega) (by omega) hb (by omega)
    have hlow : ∀ j, j ≤ sbufx + sy * 8 + 1 → d' j =
        row_display (mem (I + i)) (sbufx + sy * 8) rshift lshift d j := by
      intro j hj
      apply hframe
      intro r _
      constructor <;> omega
    have hhigh : ∀ j, sbufx + sy * 8 + 1 < j →
        row_display (mem (I + i)) (sbufx + sy * 8) rshift lshift d j = d j := by
      intro j hj
      have a1 : j ≠ sbufx + sy * 8 + 1 := by omega
      have a2 : j ≠ sbufx + sy * 8 := by omega
      simp only [row_display, a1, a2, if_false]
    refine ⟨d', vf', ?_, ?_, ?_, ?_, ?_⟩
    · rw [draw_rows_succ _ _ _ _ _ _ _ _ _ _ (by omega) (by omega)]
      exact hrun
    · intro j hj
      have h0 := hj 0 (by omega)
      simp only [Nat.add_zero] at h0
      rw [hframe j (fun r hr => by
        have := hj (r + 1) (by omega)
        rw [show sy + (r + 1) = sy + 1 + r by omega] at this
        exact this)]
      simp only [row_display, h0.1, h0.2, if_false]
    · intro r hr
      cases r with
      | zero =>
        simp only [Nat.add_zero]
        rw [hlow _ (by omega), hlow _ (by omega)]
        have a1 : sbufx + sy * 8 ≠ sbufx + sy * 8 + 1 := by omega
        simp only [row_display, a1, if_false, if_true]
        exact ⟨trivial, trivial⟩
      | succ r =>
        have := hrows r (by omega)
        rw [show sy + 1 + r = sy + (r + 1) by omega,
          show I + (i + 1) + r = I + i + (r + 1) by omega] at this
        rw [hhigh _ (by omega), hhigh _ (by omega)] at this
        exact this
    · intro hv
      apply hmono
      simp only [row_vf, hv, ite_self]
    · rintro ⟨r, hr, hc⟩
      cases r with
      | zero =>
        apply hmono
        simp only [Nat.add_zero] at hc
        simp only [row_vf, hc, if_true]
      | succ r =>
        apply hcol
        refine ⟨r, by omega, ?_⟩
        rw [show sy + 1 + r = sy + (r + 1) by omega,
          show I + (i + 1) + r = I + i + (r + 1) by omega,
          hhigh _ (by omega), hhigh _ (by omega)]
        exact hc

theorem exec_D_of_draw (x y n : Nat) (c : chip8) (d' : Nat → Nat) (vf' : Nat)
    (h : draw_rows c.mem c.i (c.v x % 64 / 8) (c.v x % 64 % 8) (8 - c.v x % 64 % 8)
      (if n + c.v y % 32 > 32 then 32 - c.v y % 32 else n) 0 (c.v y % 32) c.display 0 =
        .ok (d', vf')) :
    exec_D x y n c = .ok { c with v := Function.update c.v 0xF vf', display := d' } := by
  simp only [exec_D, CHIP8_DISPLAY_WIDTH, CHIP8_DISPLAY_HEIGHT, CHIP8_DISPLAY_BUF_WIDTH,
    CHIP8_DISPLAY_BUF_HEIGHT, Nat.reduceMul, h]

/-- One `Dxyn` step whose rows stay in the buffer, in terms of the row loop. -/
theorem draw_step (rnd : Nat) (s : chip8) (x y n : Nat) (hx : x < 15) (hy : y < 15) (hn : n < 16)
    (hpc : s.pc + 1 < 4096) (hop : opcode_at s = 0xD000 + 256 * x + 16 * y + n)
    (d' : Nat → Nat) (vf' : Nat)
    (h : draw_rows s.mem s.i (s.v x % 64 / 8) (s.v x % 64 % 8) (8 - s.v x % 64 % 8)
      (if n + s.v y % 32 > 32 then 32 - s.v y % 32 else n) 0 (s.v y % 32) s.display 0 =
        .ok (d', vf')) :
    chip8_step rnd s = .ok { tick { s with pc := s.pc + 2 } with
      v := Function.update s.v 0xF vf', display := d' } := by
  obtain ⟨d1, -, -, d4, d5, d6⟩ :=
    decode_fields 13 x y n (by omega) (by omega) (by omega) (by omega)
  have e : 4096 * 13 + 256 * x + 16 * y + n = opcode_at s := by omega
  rw [e] at d1 d4 d5 d6
  rw [chip8_step_eq rnd s (by simpa using hpc), chip8_exec_D _ _ _ d1, d5, d6,
    Nat.shiftRight_zero, d4]
  exact exec_D_of_draw x y n _ d' vf' h

theorem testBit_mod_256 (m j : Nat) :
    (m % 256).testBit j = (decide (j < 8) && m.testBit j) :=
  Nat.testBit_mod_two_pow m 8 j

theorem half_collides_first (d sprite rshift c : Nat) (hc : rshift + c < 8)
    (hs : sprite.testBit (7 - c) = true) (hp : d.testBit (7 - (rshift + c)) = false) :
    ((d ^^^ (sprite >>> rshift)) % 256) &&& (sprite >>> rshift) ≠ 0 := by
  intro h0
  have hb := congrArg (fun m => Nat.testBit m (7 - (rshift + c))) h0
  have e2 : rshift + (7 - (rshift + c)) = 7 - c := by omega
  have e3 : 7 - (rshift + c) < 8 := by omega
  simp [testBit_mod_256, e2, e3, hs, hp] at hb

theorem half_collides_second (d sprite rshift c : Nat) (hr : rshift < 8) (hc8 : c < 8)
    (hc : 8 ≤ rshift + c) (hs : sprite.testBit (7 - c) = true)
    (hp : d.testBit (7 - (rshift + c - 8)) = false) :
    ((d ^^^ (sprite <<< (8 - rshift))) % 256) &&& (sprite <<< (8 - rshift)) ≠ 0 := by
  intro h0
  have hb := congrArg (fun m => Nat.testBit m (7 - (rshift + c - 8))) h0
  have e2 : 7 - (rshift + c - 8) - (8 - rshift) = 7 - c := by omega
  have e3 : 7 - (rshift + c - 8) < 8 := by omega
  have e4 : 8 - rshift ≤ 7 - (rshift + c - 8) := by omega
  simp [testBit_mod_256, e2, e3, e4, hs, hp] at hb

/-- Two consecutive identical `Dxyn` whose rows stay in the buffer: both steps complete, and
the row loop of each satisfies `draw_rows_spec` with the same sprite rows, shifts and byte
column, the second one starting from the display left by the first. -/
theorem two_draws (r1 r2 : Nat) (s : chip8) (x y n : Nat)
    (hx : x < 15) (hy : y < 15) (hn : n < 16)
    (hpc : s.pc + 3 < 4096)
    (hop1 : opcode_at s = 0xD000 + 256 * x + 16 * y + n)
    (hop2 : opcode_at { s with pc := s.pc + 2 } = 0xD000 + 256 * x + 16 * y + n)
    (hI : s.i + n ≤ 4096)
    (hin : s.v x % 64 < 56 ∨ s.v y % 32 + n ≤ 31) :
    ∃ (rows : Nat) (s1 s2 : chip8),
      rows = (if n + s.v y % 32 > 32 then 32 - s.v y % 32 else n) ∧
      chip8_step r1 s = .ok s1 ∧ chip8_step r2 s1 = .ok s2 ∧
      (∀ j, (∀ r, r < rows → j ≠ s.v x % 64 / 8 + (s.v y % 32 + r) * 8 ∧
          j ≠ s.v x % 64 / 8 + (s.v y % 32 + r) * 8 + 1) →
        s1.display j = s.display j ∧ s2.display j = s1.display j) ∧
      (∀ r, r < rows →
        s1.display (s.v x % 64 / 8 + (s.v y % 32 + r) * 8) =
          (s.display (s.v x % 64 / 8 + (s.v y % 32 + r) * 8) ^^^
            (s.mem (s.i + r) >>> (s.v x % 64 % 8))) % 256 ∧
        s1.display (s.v x % 64 / 8 + (s.v y % 32 + r) * 8 + 1) =
          (s.display (s.v x % 64 / 8 + (s.v y % 32 + r) * 8 + 1) ^^^
            (s.mem (s.i + r) <<< (8 - s.v x % 64 % 8))) % 256 ∧
        s2.display (s.v x % 64 / 8 + (s.v y % 32 + r) * 8) =
          (s1.display (s.v x % 64 / 8 + (s.v y % 32 + r) * 8) ^^^
            (s.mem (s.i + r) >>> (s.v x % 64 % 8))) % 256 ∧
        s2.display (s.v x % 64 / 8 + (s.v y % 32 + r) * 8 + 1) =
          (s1.display (s.v x % 64 / 8 + (s.v y % 32 + r) * 8 + 1) ^^^
            (s.mem (s.i + r) <<< (8 - s.v x % 64 % 8))) % 256) ∧
      ((∃ r, r < rows ∧
          (s1.display (s.v x % 64 / 8 + (s.v y % 32 + r) * 8) &&&
              (s.mem (s.i + r) >>> (s.v x % 64 % 8)) ≠ 0 ∨
           s1.display (s.v x % 64 / 8 + (s.v y % 32 + r) * 8 + 1) &&&
              (s.mem (s.i + r) <<< (8 - s.v x % 64 % 8)) ≠ 0)) →
        s2.v 0xF = 1) := by
  obtain ⟨rows, hrows⟩ : ∃ rows, rows = if n + s.v y % 32 > 32 then 32 - s.v y % 32 else n :=
    ⟨_, rfl⟩
  have hr1 : rows ≤ n := by rw [hrows]; split_ifs <;> omega
  have hr2 : s.v y % 32 + rows ≤ 32 := by rw [hrows]; split_ifs <;> omega
  have hr3 : s.v x % 64 / 8 < 7 ∨ s.v y % 32 + rows ≤ 31 := by
    rcases hin with h | h
    · left; omega
    · right; omega
  have hb : s.v x % 64 / 8 ≤ 7 := by omega
  obtain ⟨da, va, hrun1, hframe1, hrow1, -, -⟩ :=
    draw_rows_spec s.mem s.i (s.v x % 64 / 8) (s.v x % 64 % 8) (8 - s.v x % 64 % 8) rows
      0 (s.v y % 32) s.display 0 hr2 (by omega) hb hr3
  obtain ⟨db, vb, hrun2, hframe2, hrow2, -, hcol2⟩ :=
    draw_rows_spec s.mem s.i (s.v x % 64 / 8) (s.v x % 64 % 8) (8 - s.v x % 64 % 8) rows
      0 (s.v y % 32) da 0 hr2 (by omega) hb hr3
  have hx15 : x ≠ 15 := by omega
  have hy15 : y ≠ 15 := by omega
  have e1 := draw_step r1 s x y n hx hy hn (by omega) hop1 da va (by rw [← hrows]; exact hrun1)
  have e2 := draw_step r2
    { tick { s with pc := s.pc + 2 } with v := Function.update s.v 0xF va, display := da }
    x y n hx hy hn (by simp only [tick]; omega) (by simpa [opcode_at, tick] using hop2) db vb
    (by
      simp only [tick, Function.update_noteq hx15, Function.update_noteq hy15, ← hrows]
      exact hrun2)
  simp only [Nat.add_zero] at hrow1 hrow2 hcol2
  refine ⟨rows, _, _, hrows, e1, e2, fun j hj => ⟨hframe1 j hj, hframe2 j hj⟩,
    fun r hr => ⟨(hrow1 r hr).1, (hrow1 r hr).2, (hrow2 r hr).1, (hrow2 r hr).2⟩, ?_⟩
  intro hc
  simp only [tick, Function.update_same]
  exact hcol2 hc

/-! ## The claims -/

/-- C1: when the next instruction is `8xy4` with `x` and `y` different from `0xF`, the step
completes, leaves `v[0xF] = 1` if `Vx + Vy > 255` and `0` otherwise, and
`v[x] = (Vx + Vy) mod 256`, for all pre-step register values. -/
theorem add_carry_8xy4 (rnd : Nat) (s : chip8) (x y : Nat) (hx : x < 15) (hy : y < 15)
    (hpc : s.pc + 1 < CHIP8_MEMORY_CAPACITY)
    (hop : opcode_at s = 0x8004 + 256 * x + 16 * y)
    (hvx : s.v x < 256) :
    ∃ s', chip8_step rnd s = .ok s' ∧
      s'.v 0xF = (if s.v x + s.v y > 255 then 1 else 0) ∧
      s'.v x = (s.v x + s.v y) % 256 := by
  obtain ⟨d1, -, -, d4, d5, d6⟩ :=
    decode_fields 8 x y 4 (by omega) (by omega) (by omega) (by omega)
  have e : 4096 * 8 + 256 * x + 16 * y + 4 = opcode_at s := by omega
  rw [e] at d1 d4 d5 d6
  have hx15 : x ≠ 15 := by omega
  have hy15 : y ≠ 15 := by omega
  have hxF : (15 : Nat) ≠ x := by omega
  refine ⟨_, by rw [chip8_step_eq rnd s hpc, chip8_exec_8 _ _ _ d1, d5, d6], ?_, ?_⟩
  · simp [exec_8, d4, tick, Function.update, hx15, hy15, hxF]
    congr 1
    simp
    omega
  · simp [exec_8, d4, tick, Function.update, hx15, hy15]

/-- C1, at `V1 = 200`, `V2 = 100`: the hypotheses hold and the step leaves `VF = 1`,
`V1 = 44`. -/
theorem add_carry_8xy4_witness :
    opcode_at add_state = 0x8004 + 256 * 1 + 16 * 2 ∧
    ∃ s', chip8_step 0 add_state = .ok s' ∧
      s'.v 0xF = (if add_state.v 1 + add_state.v 2 > 255 then 1 else 0) ∧
      s'.v 1 = (add_state.v 1 + add_state.v 2) % 256 :=
  ⟨rfl, add_carry_8xy4 0 add_state 1 2 (by decide) (by decide) (by decide) rfl (by decide)⟩

/-- C2, the code at equal operands: the ROM `6107 6207 8125` sets `V1 = V2 = 7` and
subtracts; the step leaves `V1 = 0` and `VF = 0`, where `Vx >= Vy` asks for `VF = 1`. -/
theorem sub_8xy5_equal_operands :
    ∃ s', chip8_run [0, 0, 0] (boot [0x61, 0x07, 0x62, 0x07, 0x81, 0x25]) = .ok s' ∧
      s'.v 1 = 0 ∧ s'.v 0xF = 0 :=
  ⟨_, rfl, rfl, rfl⟩

/-- C3, the code at `Vx = 255`: the ROM `60FF A300 F033` stores `2, 25, 5` at
`mem[0x300..0x302]`; the tens byte is `25`, not the decimal digit `5`. -/
theorem bcd_Fx33_255 :
    ∃ s', chip8_run [0, 0, 0] (boot [0x60, 0xFF, 0xA3, 0x00, 0xF0, 0x33]) = .ok s' ∧
      s'.mem 0x300 = 2 ∧ s'.mem 0x301 = 25 ∧ s'.mem 0x302 = 5 :=
  ⟨_, rfl, rfl, rfl, rfl⟩

/-- C4: for every ROM content `r`, `chip8_load` returns `0` exactly when
`len(r) + 0x200 >= 4096`, and then leaves the machine unchanged; otherwise it returns `1`,
`mem[0x200 + k] = r[k]` for every `k < len(r)`, every other memory byte is unchanged and so
is every other field. -/
theorem load_contract (c8 : chip8) (r : List Nat) :
    ((chip8_load c8 (some r)).2 = 0 ↔ r.length + 0x200 ≥ CHIP8_MEMORY_CAPACITY) ∧
    (r.length + 0x200 ≥ CHIP8_MEMORY_CAPACITY → chip8_load c8 (some r) = (c8, 0)) ∧
    (¬ r.length + 0x200 ≥ CHIP8_MEMORY_CAPACITY →
      (chip8_load c8 (some r)).2 = 1 ∧
      (∀ k, ∀ h : k < r.length, (chip8_load c8 (some r)).1.mem (0x200 + k) = r.get ⟨k, h⟩) ∧
      (∀ a, a < 0x200 ∨ 0x200 + r.length ≤ a →
        (chip8_load c8 (some r)).1.mem a = c8.mem a) ∧
      { (chip8_load c8 (some r)).1 with mem := c8.mem } = c8) := by
  by_cases h : r.length + 0x200 ≥ 4096
  · simp [chip8_load, h]
  · simp only [chip8_load, CHIP8_MEMORY_CAPACITY, h, if_false]
    refine ⟨by simp, by simp, fun _ => ⟨trivial, ?_, ?_, trivial⟩⟩
    · intro k hk
      simp [hk, List.getD_eq_getElem]
    · intro a ha
      have : ¬ (0x200 ≤ a ∧ a < 0x200 + r.length) := by omega
      simp [this]

/-- C5, as stated, fails: a ROM of exactly `4096 - 512 = 3584` bytes is refused
(`chip8_load` does not return `1`). -/
theorem load_3584_rejected :
    ¬ (chip8_load (chip8_init blank) (some (List.replicate 3584 0))).2 = 1 := by
  simp only [chip8_load, List.length_replicate, CHIP8_MEMORY_CAPACITY]
  decide

/-- C5, amended: `chip8_load` returns `1` exactly for ROMs of at most `3583` bytes; a ROM
of `3583` bytes is copied to `mem[0x200..0xFFE]`, and a ROM of `3584` bytes is refused with
the machine unchanged. -/
theorem load_max_length (c8 : chip8) (r : List Nat) :
    ((chip8_load c8 (some r)).2 = 1 ↔ r.length ≤ 3583) ∧
    (r.length = 3583 →
      ∀ k, ∀ h : k < r.length, (chip8_load c8 (some r)).1.mem (0x200 + k) = r.get ⟨k, h⟩) ∧
    (r.length = 3584 → chip8_load c8 (some r) = (c8, 0)) := by
  refine ⟨?_, ?_, ?_⟩
  · by_cases h : r.length + 0x200 ≥ 4096
    · simp [chip8_load, h]; omega
    · simp [chip8_load, h]; omega
  · intro hl k hk
    have h : ¬ r.length + 0x200 ≥ 4096 := by omega
    simp [chip8_load, h, hk, List.getD_eq_getElem]
  · intro hl
    simp [chip8_load, hl]

/-- C7, as stated, fails: two steps into `lit_rom` pixel `(0, 0)` is lit; the sprite byte
`0x80` is then drawn twice at `(0, 0)`, its set bit landing on the screen, yet `v[0xF] = 0`
after the second draw (the first draw switched the pixel off, so the second meets no lit
pixel). -/
theorem second_draw_no_collision :
    ∃ s0 s1 s2, chip8_run [0, 0] (boot lit_rom) = .ok s0 ∧
      opcode_at s0 = 0xD001 ∧ chip8_step 0 s0 = .ok s1 ∧
      opcode_at s1 = 0xD001 ∧ chip8_step 0 s1 = .ok s2 ∧
      (s0.mem s0.i).testBit 7 = true ∧ pixel s0.display 0 = true ∧ s2.v 0xF = 0 :=
  ⟨_, _, _, rfl, rfl, rfl, rfl, rfl, rfl, rfl, rfl⟩

/-- C7, amended: when the same `Dxyn` (`x`, `y` different from `0xF`, rows inside the
buffer) is executed twice in a row and some set sprite bit lands on a pixel that was off
before the first draw, then `v[0xF] = 1` after the second draw.  Bit `7 - c` of sprite row
`r` lands on pixel `64 * (Vy mod 32 + r) + Vx mod 64 + c` of the packed display. -/
theorem second_draw_collides (r1 r2 : Nat) (s : chip8) (x y n : Nat)
    (hx : x < 15) (hy : y < 15) (hn : n < 16)
    (hpc : s.pc + 3 < CHIP8_MEMORY_CAPACITY)
    (hop1 : opcode_at s = 0xD000 + 256 * x + 16 * y + n)
    (hop2 : opcode_at { s with pc := s.pc + 2 } = 0xD000 + 256 * x + 16 * y + n)
    (hI : s.i + n ≤ CHIP8_MEMORY_CAPACITY)
    (hin : s.v x % 64 < 56 ∨ s.v y % 32 + n ≤ 31)
    (hbit : ∃ r c, r < n ∧ s.v y % 32 + r < 32 ∧ c < 8 ∧
      (s.mem (s.i + r)).testBit (7 - c) = true ∧
      pixel s.display (64 * (s.v y % 32 + r) + s.v x % 64 + c) = false) :
    ∃ s1 s2, chip8_step r1 s = .ok s1 ∧ chip8_step r2 s1 = .ok s2 ∧ s2.v 0xF = 1 := by
  simp only [CHIP8_MEMORY_CAPACITY] at hpc hI
  obtain ⟨rows, s1, s2, hrows, e1, e2, -, hrow, hcol⟩ :=
    two_draws r1 r2 s x y n hx hy hn hpc hop1 hop2 hI hin
  refine ⟨s1, s2, e1, e2, hcol ?_⟩
  obtain ⟨r, c, hrn, hrs, hc, hs, hp⟩ := hbit
  have hrr : r < rows := by rw [hrows]; split_ifs <;> omega
  refine ⟨r, hrr, ?_⟩
  simp only [pixel] at hp
  by_cases hlt : s.v x % 64 % 8 + c < 8
  · left
    rw [(hrow r hrr).1]
    have q1 : (64 * (s.v y % 32 + r) + s.v x % 64 + c) / 8 =
        s.v x % 64 / 8 + (s.v y % 32 + r) * 8 := by omega
    have q2 : (64 * (s.v y % 32 + r) + s.v x % 64 + c) % 8 = s.v x % 64 % 8 + c := by omega
    rw [q1, q2] at hp
    exact half_collides_first _ _ _ c hlt hs hp
  · right
    rw [(hrow r hrr).2.1]
    have q1 : (64 * (s.v y % 32 + r) + s.v x % 64 + c) / 8 =
        s.v x % 64 / 8 + (s.v y % 32 + r) * 8 + 1 := by omega
    have q2 : (64 * (s.v y % 32 + r) + s.v x % 64 + c) % 8 = s.v x % 64 % 8 + c - 8 := by omega
    rw [q1, q2] at hp
    exact half_collides_second _ _ _ c (by omega) hc (by omega) hs hp

/-- C7, amended, on a dark display at the origin `(60, 5)`: the leftmost sprite bit lands
on a pixel that is off, and `v[0xF] = 1` after the second draw. -/
theorem second_draw_collides_witness :
    pixel dark_state.display (64 * (dark_state.v 1 % 32 + 0) + dark_state.v 0 % 64 + 0) = false ∧
    ∃ s1 s2, chip8_step 0 dark_state = .ok s1 ∧ chip8_step 0 s1 = .ok s2 ∧ s2.v 0xF = 1 :=
  ⟨rfl,
    second_draw_collides 0 0 dark_state 0 1 1 (by decide) (by decide) (by decide) (by decide)
      rfl rfl (by decide) (Or.inr (by decide))
      ⟨0, 0, by decide, by decide, by decide, rfl, rfl⟩⟩

/-- C8: from a state with `sp < 16` whose next instruction, at address `a`, is `2nnn`, and
where `mem[nnn..nnn+1]` holds `00EE`, two steps complete and leave `pc = a + 2`, `sp` at its
value before the call, and the stack slots below `sp` unchanged. -/
theorem call_then_ret (r1 r2 : Nat) (s : chip8) (nnn : Nat)
    (hsp : s.sp < 16) (hpc : s.pc + 1 < CHIP8_MEMORY_CAPACITY)
    (hop : opcode_at s = 0x2000 + nnn) (hnnn : nnn + 1 < CHIP8_MEMORY_CAPACITY)
    (hret : s.mem nnn = 0x00 ∧ s.mem (nnn + 1) = 0xEE) :
    ∃ s1 s2, chip8_step r1 s = .ok s1 ∧ chip8_step r2 s1 = .ok s2 ∧
      s2.pc = s.pc + 2 ∧ s2.sp = s.sp ∧ ∀ k, k < s.sp → s2.stack k = s.stack k := by
  simp only [CHIP8_MEMORY_CAPACITY] at hpc hnnn
  have hw : opcode_at s &&& 0xFFF = nnn := by rw [hop, and_FFF]; omega
  have hs : opcode_at s &&& 0xF000 = 0x2000 := by rw [hop, and_F000]; omega
  have hsp1 : ¬ 16 ≤ s.sp := by omega
  have e1 : chip8_step r1 s = .ok
      { tick { s with pc := s.pc + 2 } with
        stack := Function.update s.stack s.sp (s.pc + 2)
        sp := (s.sp + 1) % 256
        pc := nnn } := by
    rw [chip8_step_eq r1 s hpc]
    simp [chip8_exec, hs, hw, tick, hsp1]
  have hq : (s.sp + 1) % 256 = s.sp + 1 := by omega
  have hq2 : (s.sp + 1 + 256 - 1) % 256 = s.sp := by omega
  have hn1 : (nnn + 1) % 65536 = nnn + 1 := by omega
  have e2 : chip8_step r2
      { tick { s with pc := s.pc + 2 } with
        stack := Function.update s.stack s.sp (s.pc + 2)
        sp := (s.sp + 1) % 256
        pc := nnn } = .ok
      { tick (tick { s with pc := s.pc + 2 }) with
        stack := Function.update s.stack s.sp (s.pc + 2)
        sp := s.sp
        pc := s.pc + 2 } := by
    rw [chip8_step_eq _ _ (by simpa using hnnn)]
    have k1 : (238 : Nat) &&& 61440 = 0 := by decide
    have k2 : (238 : Nat) &&& 4095 = 238 := by decide
    have hq3 : s.sp % 256 = s.sp := by omega
    simp [chip8_exec, opcode_at, tick, hret, hq, hq2, hq3, hn1, hsp1, k1, k2]
  refine ⟨_, _, e1, e2, rfl, rfl, ?_⟩
  intro k hk
  have : k ≠ s.sp := by omega
  simp [tick, Function.update, this]

/-- C8, on the ROM `2204 0000 00EE`: `CALL 0x204` then `RET` come back to `0x202` with the
stack pointer at `0`. -/
theorem call_then_ret_witness :
    opcode_at call_state = 0x2000 + 0x204 ∧
    ∃ s1 s2, chip8_step 0 call_state = .ok s1 ∧ chip8_step 0 s1 = .ok s2 ∧
      s2.pc = call_state.pc + 2 ∧ s2.sp = call_state.sp ∧
      ∀ k, k < call_state.sp → s2.stack k = call_state.stack k :=
  ⟨rfl, call_then_ret 0 0 call_state 0x204 (by decide) (by decide) rfl (by decide) ⟨rfl, rfl⟩⟩

/-- C9: when the next instruction, at address `a`, is `Fx0A`.  If no keyboard entry is
`CHIP8_KEY_DOWN`, the step completes with `pc` still `a`, every register unchanged and the
same instruction word at `pc`, and so does any number of repeated steps.  If some key is
down and `k` is the lowest-numbered one, the step completes with `pc = a + 2` and
`v[x] = k`. -/
theorem key_wait_Fx0A (rnd : Nat) (s : chip8) (x : Nat) (hx : x < 16)
    (hpc : s.pc + 1 < CHIP8_MEMORY_CAPACITY) (hop : opcode_at s = 0xF00A + 256 * x) :
    ((∀ k, k < 16 → s.keyboard k ≠ CHIP8_KEY_DOWN) →
      (∃ s', chip8_step rnd s = .ok s' ∧ s'.pc = s.pc ∧ (∀ j, j < 16 → s'.v j = s.v j) ∧
        opcode_at s' = opcode_at s) ∧
      (∀ rnds : List Nat, ∃ s', chip8_run rnds s = .ok s' ∧ s'.pc = s.pc ∧
        (∀ j, j < 16 → s'.v j = s.v j) ∧ opcode_at s' = opcode_at s)) ∧
    (∀ k, k < 16 → s.keyboard k = CHIP8_KEY_DOWN →
      (∀ j, j < k → s.keyboard j ≠ CHIP8_KEY_DOWN) →
      ∃ s', chip8_step rnd s = .ok s' ∧ s'.pc = s.pc + 2 ∧ s'.v x = k) := by
  refine ⟨fun hup => ⟨⟨_, key_wait_idle_step rnd s x hx hpc hop hup, rfl, fun _ _ => rfl, rfl⟩, ?_⟩,
    ?_⟩
  · intro rnds
    have gen : ∀ (t : chip8), t.pc = s.pc → t.mem = s.mem → t.keyboard = s.keyboard →
        t.v = s.v → ∃ s', chip8_run rnds t = .ok s' ∧ s'.pc = s.pc ∧
          (∀ j, j < 16 → s'.v j = s.v j) ∧ opcode_at s' = opcode_at s := by
      induction rnds with
      | nil =>
        intro t h1 h2 h3 h4
        exact ⟨t, rfl, h1, fun j _ => by rw [h4], by simp [opcode_at, h1, h2]⟩
      | cons r rs ih =>
        intro t h1 h2 h3 h4
        have hopt : opcode_at t = 0xF00A + 256 * x := by
          rw [← hop]; simp [opcode_at, h1, h2]
        have hst := key_wait_idle_step r t x hx (by rw [h1]; exact hpc) hopt
          (by rw [h3]; exact hup)
        obtain ⟨s', hs', rest⟩ := ih (tick t) h1 h2 h3 h4
        exact ⟨s', by simp [chip8_run, hst, hs'], rest⟩
    exact gen s rfl rfl rfl rfl
  · intro k hk hd hfirst
    obtain ⟨d1, -, d3, -, d5, -⟩ :=
      decode_fields 15 x 0 10 (by omega) (by omega) (by omega) (by omega)
    have e : 4096 * 15 + 256 * x + 16 * 0 + 10 = opcode_at s := by omega
    rw [e] at d1 d3 d5
    have hs : key_scan (tick { s with pc := s.pc + 2 }).keyboard 0x10 0 = some k :=
      key_scan_first _ _ _ _ (by omega) (by omega) hd (fun j _ hj => hfirst j hj)
    simp only [CHIP8_MEMORY_CAPACITY] at hpc
    have h2 : ((s.pc + 2 + 65536 - 2) % 65536 + 2) % 65536 = s.pc + 2 := by omega
    refine ⟨_, by rw [chip8_step_eq rnd s (by simpa using hpc), chip8_exec_F _ _ _ d1,
      exec_F_0A_some _ _ _ _ d3 hs, d5], ?_, ?_⟩
    · simp only [tick, h2]
    · simp [tick]

/-- C9, with key `3` down and `LD V1, K` at `0x200`: the step stores `3` in `V1` and moves
`pc` to `0x202`. -/
theorem key_wait_Fx0A_witness :
    opcode_at key_state = 0xF00A + 256 * 1 ∧
    ∃ s', chip8_step 0 key_state = .ok s' ∧ s'.pc = key_state.pc + 2 ∧ s'.v 1 = 3 :=
  ⟨rfl, (key_wait_Fx0A 0 key_state 1 (by decide) (by decide) rfl).2 3 (by decide) rfl
    (by decide)⟩

/-- C10: if `k` calls of `chip8_step` complete and none of the `k` executed instructions is
`Fx15`, the delay timer ends at `max(d - k, 0)` where `d` is its value before; so from
`dt = 10` it is `0` exactly when at least 10 steps were made (nonzero before, `0` at 10 and
at every later step, never wrapping). -/
theorem delay_timer_countdown (rnds : List Nat) (s s' : chip8)
    (hrun : chip8_run rnds s = .ok s') (hno : no_dt_write rnds s = true) :
    (s'.dt : Int) = max ((s.dt : Int) - rnds.length) 0 ∧
    (s.dt = 10 → (s'.dt = 0 ↔ 10 ≤ rnds.length)) := by
  have h := chip8_run_dt rnds s s' hrun hno
  constructor
  · omega
  · intro h10
    omega

/-- C10, on the loop `JP 0x200` started with `dt = 10`: ten steps complete, none is `Fx15`,
and the timer is `0`. -/
theorem delay_timer_countdown_witness :
    chip8_run (List.replicate 10 0) spin10 = .ok { spin10 with dt := 0 } ∧
    no_dt_write (List.replicate 10 0) spin10 = true ∧
    (({ spin10 with dt := 0 }.dt : Int) =
        max ((spin10.dt : Int) - (List.replicate 10 0).length) 0 ∧
      (spin10.dt = 10 →
        ({ spin10 with dt := 0 }.dt = 0 ↔ 10 ≤ (List.replicate 10 0).length))) :=
  ⟨rfl, rfl, delay_timer_countdown (List.replicate 10 0) spin10 _ rfl rfl⟩

/-! ## Frames of the executor -/

/-- The selector `opcode & 0xF000` takes one of the sixteen values `0x0000 .. 0xF000`, each of
which has a `case` in `chip8_step`. -/
theorem sel_cases (op : Nat) : ∃ q, q < 16 ∧ op &&& 0xF000 = 4096 * q :=
  ⟨(op / 4096) % 16, Nat.mod_lt _ (by norm_num), and_F000 op⟩

/-- A completed step fetched both bytes inside memory and is the execution of the fetched
word on the ticked state. -/
theorem chip8_step_ok (rnd : Nat) (s s' : chip8) (h : chip8_step rnd s = .ok s') :
    s.pc + 1 < 4096 ∧
      chip8_exec rnd (opcode_at s) (tick { s with pc := s.pc + 2 }) = .ok s' := by
  have hpc : s.pc + 1 < 4096 := by
    simp only [chip8_step, CHIP8_MEMORY_CAPACITY] at h
    split at h
    · exact absurd h (by simp)
    · split at h
      · exact absurd h (by simp)
      · omega
  exact ⟨hpc, by rw [← chip8_step_eq rnd s (by simpa using hpc)]; exact h⟩

theorem okThen_mono (r : Except Fault chip8) (P Q : chip8 → Prop) (h : ∀ c, P c → Q c)
    (hr : okThen r P) : okThen r Q :=
  fun c' hc => h c' (hr c' hc)

/-- The draw changes `v` and `display` only. -/
theorem exec_D_frame (x y n : Nat) (c : chip8) :
    okThen (exec_D x y n c) (fun c' => ∃ v' d', c' = { c with v := v', display := d' }) := by
  intro c' h
  simp only [exec_D] at h
  split at h
  · exact absurd h (by simp)
  · simp only [Except.ok.injEq] at h
    exact ⟨_, _, h.symm⟩

/-- The function `chip8_load` changes `mem` only, and only from `0x200` on. -/
theorem chip8_load_frame (c : chip8) (file : Option (List Nat)) :
    ∃ m, (chip8_load c file).1 = { c with mem := m } ∧ ∀ a, a < 0x200 → m a = c.mem a := by
  cases file with
  | none => exact ⟨c.mem, rfl, fun _ _ => rfl⟩
  | some rom =>
    simp only [chip8_load]
    split
    · exact ⟨c.mem, rfl, fun _ _ => rfl⟩
    · refine ⟨_, rfl, fun a ha => ?_⟩
      have : ¬ (0x200 ≤ a ∧ a < 0x200 + rom.length) := by omega
      simp only [this, if_false]

/-- The function `chip8_key_set_state` changes `keyboard` only. -/
theorem key_set_frame (s s' : chip8) (key state : Int)
    (h : chip8_key_set_state s key state = .ok s') :
    ∃ kb, s' = { s with keyboard := kb } := by
  simp only [chip8_key_set_state] at h
  split at h
  · exact absurd h (by simp)
  · simp only [Except.ok.injEq] at h
    exact ⟨_, h.symm⟩

/-- A completed run from a reachable state ends in a reachable state. -/
theorem reachable_run (rnds : List Nat) :
    ∀ (s s' : chip8), Reachable s → chip8_run rnds s = .ok s' → Reachable s' := by
  induction rnds with
  | nil =>
    intro s s' hr hrun
    simp only [chip8_run, Except.ok.injEq] at hrun
    exact hrun ▸ hr
  | cons r rs ih =>
    intro s s' hr hrun
    simp only [chip8_run] at hrun
    cases hst : chip8_step r s with
    | error e => rw [hst] at hrun; exact absurd hrun (by simp)
    | ok s1 =>
      rw [hst] at hrun
      exact ih s1 s' (Reachable.step r s s1 hr hst) hrun

/-- A property kept by every step made from a state satisfying `p` holds at the end of a run
along which `p` holds. -/
theorem run_invariant (P : chip8 → Prop) (p : chip8 → Bool)
    (hstep : ∀ rnd s s', P s → p s = true → chip8_step rnd s = .ok s' → P s') :
    ∀ (rnds : List Nat) (s s' : chip8),
      P s → along p rnds s = true → chip8_run rnds s = .ok s' → P s' := by
  intro rnds
  induction rnds with
  | nil =>
    intro s s' hP _ hrun
    simp only [chip8_run, Except.ok.injEq] at hrun
    exact hrun ▸ hP
  | cons r rs ih =>
    intro s s' hP hp hrun
    simp only [along, Bool.and_eq_true] at hp
    simp only [chip8_run] at hrun
    cases hst : chip8_step r s with
    | error e => rw [hst] at hrun; exact absurd hrun (by simp)
    | ok s1 =>
      rw [hst] at hrun
      have h1 := hp.2
      rw [hst] at h1
      exact ih s1 s' (hstep r s s1 hP hp.1 hst) h1 hrun

/-! ## Standard output, `beep` and the sound timer -/

theorem exec_8_out (op x y : Nat) (c : chip8) : (exec_8 op x y c).out = c.out := by
  simp only [exec_8, apply_ite chip8.out, ite_self]

theorem exec_F_out (op x : Nat) (c : chip8) :
    okThen (exec_F op x c) (fun c' => c'.out = c.out) := by
  simp only [exec_F, okThen_ite, okThen_ok, okThen_error, ite_self]
  cases key_scan c.keyboard 16 0 <;> cases store_regs c.v c.i (x + 1) 0 c.mem <;>
    cases load_regs c.mem c.i (x + 1) 0 c.v <;>
    simp only [okThen_ok, okThen_error, ite_self]

theorem chip8_exec_out (rnd op : Nat) (c : chip8) :
    okThen (chip8_exec rnd op c) (fun c' => c'.out = c.out) := by
  obtain ⟨q, hq, hsel⟩ := sel_cases op
  have hD : okThen (exec_D (op >>> 8 &&& 15) (op >>> 4 &&& 15) (op >>> 0 &&& 15) c)
      (fun c' => c'.out = c.out) :=
    okThen_mono _ _ _ (by rintro c' ⟨v', d', rfl⟩; rfl) (exec_D_frame _ _ _ c)
  interval_cases q <;>
    simp only [chip8_exec, hsel, Nat.reduceMul, okThen_ite, okThen_ok, okThen_error, ite_self,
      apply_ite chip8.out, exec_8_out, exec_F_out, hD, Nat.reduceEqDiff,
      if_true, if_false]

/-- No step writes to standard output: the `default:` arm of `chip8_step` is never reached. -/
theorem chip8_step_out (rnd : Nat) (s s' : chip8) (h : chip8_step rnd s = .ok s') :
    s'.out = s.out :=
  chip8_exec_out rnd (opcode_at s) (tick { s with pc := s.pc + 2 }) s'
    (chip8_step_ok rnd s s' h).2

theorem exec_8_beep (op x y : Nat) (c : chip8) : (exec_8 op x y c).beep = c.beep := by
  simp only [exec_8, apply_ite chip8.beep, ite_self]

theorem exec_8_st (op x y : Nat) (c : chip8) : (exec_8 op x y c).st = c.st := by
  simp only [exec_8, apply_ite chip8.st, ite_self]

theorem exec_F_beep (op x : Nat) (c : chip8) :
    okThen (exec_F op x c) (fun c' => c'.beep = c.beep) := by
  simp only [exec_F, okThen_ite, okThen_ok, okThen_error, ite_self]
  cases key_scan c.keyboard 16 0 <;> cases store_regs c.v c.i (x + 1) 0 c.mem <;>
    cases load_regs c.mem c.i (x + 1) 0 c.v <;>
    simp only [okThen_ok, okThen_error, ite_self]

theorem exec_F_st (op x : Nat) (c : chip8) (hne : op &&& 0x00FF ≠ 0x0018) :
    okThen (exec_F op x c) (fun c' => c'.st = c.st) := by
  simp only [exec_F, okThen_ite, okThen_ok, okThen_error, ite_self, hne, if_false]
  cases key_scan c.keyboard 16 0 <;> cases store_regs c.v c.i (x + 1) 0 c.mem <;>
    cases load_regs c.mem c.i (x + 1) 0 c.v <;>
    simp only [okThen_ok, okThen_error, ite_self]

theorem chip8_exec_beep (rnd op : Nat) (c : chip8) :
    okThen (chip8_exec rnd op c) (fun c' => c'.beep = c.beep) := by
  obtain ⟨q, hq, hsel⟩ := sel_cases op
  have hD : okThen (exec_D (op >>> 8 &&& 15) (op >>> 4 &&& 15) (op >>> 0 &&& 15) c)
      (fun c' => c'.beep = c.beep) :=
    okThen_mono _ _ _ (by rintro c' ⟨v', d', rfl⟩; rfl) (exec_D_frame _ _ _ c)
  interval_cases q <;>
    simp only [chip8_exec, hsel, Nat.reduceMul, okThen_ite, okThen_ok, okThen_error, ite_self,
      apply_ite chip8.beep, exec_8_beep, exec_F_beep, hD, Nat.reduceEqDiff,
      if_true, if_false]

theorem chip8_exec_st (rnd op : Nat) (c : chip8) (hne : is_Fx18 op = false) :
    okThen (chip8_exec rnd op c) (fun c' => c'.st = c.st) := by
  obtain ⟨q, hq, hsel⟩ := sel_cases op
  have hD : okThen (exec_D (op >>> 8 &&& 15) (op >>> 4 &&& 15) (op >>> 0 &&& 15) c)
      (fun c' => c'.st = c.st) :=
    okThen_mono _ _ _ (by rintro c' ⟨v', d', rfl⟩; rfl) (exec_D_frame _ _ _ c)
  have hF : op &&& 0xF000 = 0xF000 → okThen (exec_F op (op >>> 8 &&& 15) c)
      (fun c' => c'.st = c.st) := by
    intro hs
    apply exec_F_st
    intro hb
    simp [is_Fx18, hs, hb] at hne
  interval_cases q
  case «15» => simpa [chip8_exec, hsel] using hF hsel
  all_goals
    simp only [chip8_exec, hsel, Nat.reduceMul, okThen_ite, okThen_ok, okThen_error, ite_self,
      apply_ite chip8.st, exec_8_st, hD, Nat.reduceEqDiff, if_true, if_false]

/-! ## The draw past the buffer -/

/-- The row loop in the last byte column, ending on row 31, indexes `display[256]`. -/
theorem draw_rows_past_end (mem : Nat → Nat) (I rshift lshift rows : Nat) :
    ∀ (i sy : Nat) (d : Nat → Nat) (vf : Nat),
      0 < rows → sy + rows = 32 → I + i + rows ≤ 4096 →
      draw_rows mem I 7 rshift lshift rows i sy d vf = .error (.display 256) := by
  induction rows with
  | zero => intro _ _ _ _ h; omega
  | succ rows ih =>
    intro i sy d vf _ hrow hmem
    by_cases h0 : rows = 0
    · subst h0
      have hsy : sy = 31 := by omega
      subst hsy
      have c1 : ¬ 4096 ≤ I + i := by omega
      simp [draw_rows, c1]
    · rw [draw_rows_succ _ _ _ _ _ _ _ _ _ _ (by omega) (by omega)]
      exact ih _ _ _ _ (by omega) (by omega) (by omega)

theorem exec_D_of_fault (x y n : Nat) (c : chip8) (e : Fault)
    (h : draw_rows c.mem c.i (c.v x % 64 / 8) (c.v x % 64 % 8) (8 - c.v x % 64 % 8)
      (if n + c.v y % 32 > 32 then 32 - c.v y % 32 else n) 0 (c.v y % 32) c.display 0 =
        .error e) :
    exec_D x y n c = .error e := by
  simp only [exec_D, CHIP8_DISPLAY_WIDTH, CHIP8_DISPLAY_HEIGHT, CHIP8_DISPLAY_BUF_WIDTH,
    CHIP8_DISPLAY_BUF_HEIGHT, Nat.reduceMul, h]

/-! ## Stack pointer, program counter and index register -/

theorem exec_8_sp (op x y : Nat) (c : chip8) : (exec_8 op x y c).sp = c.sp := by
  simp only [exec_8, apply_ite chip8.sp, ite_self]

theorem exec_F_sp (op x : Nat) (c : chip8) :
    okThen (exec_F op x c) (fun c' => c'.sp = c.sp) := by
  simp only [exec_F, okThen_ite, okThen_ok, okThen_error, ite_self]
  cases key_scan c.keyboard 16 0 <;> cases store_regs c.v c.i (x + 1) 0 c.mem <;>
    cases load_regs c.mem c.i (x + 1) 0 c.v <;>
    simp only [okThen_ok, okThen_error, ite_self]

theorem chip8_exec_sp (rnd op : Nat) (c : chip8) (h : c.sp ≤ 16) :
    okThen (chip8_exec rnd op c) (fun c' => c'.sp ≤ 16) := by
  obtain ⟨q, hq, hsel⟩ := sel_cases op
  have hD : okThen (exec_D (op >>> 8 &&& 15) (op >>> 4 &&& 15) (op >>> 0 &&& 15) c)
      (fun c' => c'.sp ≤ 16) :=
    okThen_mono _ _ _ (by rintro c' ⟨v', d', rfl⟩; exact h) (exec_D_frame _ _ _ c)
  have hF : okThen (exec_F op (op >>> 8 &&& 15) c) (fun c' => c'.sp ≤ 16) :=
    okThen_mono _ _ _ (by intro c' hc; rw [hc]; exact h) (exec_F_sp _ _ c)
  interval_cases q
  case «0» =>
    simp only [chip8_exec, hsel, Nat.reduceMul, okThen_ite, okThen_ok, okThen_error, if_true]
    split_ifs <;> first | trivial | omega
  case «2» =>
    simp only [chip8_exec, hsel, Nat.reduceMul, okThen_ite, okThen_ok, okThen_error,
      Nat.reduceEqDiff, if_true, if_false]
    split_ifs
    omega
  all_goals
    simp only [chip8_exec, hsel, Nat.reduceMul, okThen_ite, okThen_ok, okThen_error, ite_self,
      apply_ite chip8.sp, exec_8_sp, hD, hF, h, Nat.reduceEqDiff, if_true, if_false]

theorem reachable_sp (s : chip8) (hr : Reachable s) : s.sp ≤ 16 := by
  induction hr with
  | boot c0 file =>
    obtain ⟨m, hm, -⟩ := chip8_load_frame (chip8_init c0) file
    rw [hm]
    exact Nat.zero_le _
  | step rnd s s' _ hstep ih =>
    exact chip8_exec_sp rnd _ (tick { s with pc := s.pc + 2 }) ih s'
      (chip8_step_ok rnd s s' hstep).2
  | key key state s s' _ hkey ih =>
    obtain ⟨kb, rfl⟩ := key_set_frame s s' key state hkey
    exact ih

theorem exec_8_wide16 (op x y : Nat) (c : chip8) (h : wide16 c) : wide16 (exec_8 op x y c) := by
  have e1 : (exec_8 op x y c).pc = c.pc := by
    simp only [exec_8, apply_ite chip8.pc, ite_self]
  have e2 : (exec_8 op x y c).i = c.i := by
    simp only [exec_8, apply_ite chip8.i, ite_self]
  have e3 : (exec_8 op x y c).stack = c.stack := by
    simp only [exec_8, apply_ite chip8.stack, ite_self]
  simp only [wide16, e1, e2, e3]
  exact h

theorem exec_F_wide16 (op x : Nat) (c : chip8) (h : wide16 c) :
    okThen (exec_F op x c) wide16 := by
  obtain ⟨hpc, hi, hst⟩ := h
  have m1 : ∀ a, a % 65536 < 65536 := fun a => Nat.mod_lt _ (by norm_num)
  have m2 : c.v x % 16 * 5 < 65536 := by omega
  simp only [exec_F, okThen_ite, okThen_ok, okThen_error]
  cases key_scan c.keyboard 16 0 <;> cases store_regs c.v c.i (x + 1) 0 c.mem <;>
    cases load_regs c.mem c.i (x + 1) 0 c.v <;>
    simp only [okThen_ok, okThen_error, wide16, hpc, hi, hst, m1, m2, and_self, implies_true,
      ite_self]

theorem chip8_exec_wide16 (rnd op : Nat) (c : chip8) (h : wide16 c) :
    okThen (chip8_exec rnd op c) wide16 := by
  obtain ⟨q, hq, hsel⟩ := sel_cases op
  have hD : okThen (exec_D (op >>> 8 &&& 15) (op >>> 4 &&& 15) (op >>> 0 &&& 15) c) wide16 :=
    okThen_mono _ _ _ (by rintro c' ⟨v', d', rfl⟩; exact h) (exec_D_frame _ _ _ c)
  have hF := exec_F_wide16 op (op >>> 8 &&& 15) c h
  have h8 := exec_8_wide16 op (op >>> 8 &&& 15) (op >>> 4 &&& 15) c h
  obtain ⟨hpc, hi, hst⟩ := h
  have m1 : ∀ a, a % 65536 < 65536 := fun a => Nat.mod_lt _ (by norm_num)
  have m2 : op &&& 4095 < 65536 := by rw [and_FFF]; omega
  have m3 : ∀ k, Function.update c.stack c.sp c.pc k < 65536 := by
    intro k
    rw [Function.update_apply]
    split
    · exact hpc
    · exact hst k
  interval_cases q <;>
    simp only [chip8_exec, hsel, Nat.reduceMul, okThen_ite, okThen_ok, okThen_error, ite_self,
      apply_ite wide16, hD, hF, h8, Nat.reduceEqDiff, if_true, if_false] <;>
    simp only [wide16, hpc, hi, hst, m1, m2, m3, and_self, implies_true, ite_self]

theorem reachable_wide16 (s : chip8) (hr : Reachable s) : wide16 s := by
  induction hr with
  | boot c0 file =>
    obtain ⟨m, hm, -⟩ := chip8_load_frame (chip8_init c0) file
    rw [hm]
    exact ⟨by simp [chip8_init], by simp [chip8_init], fun _ => by simp [chip8_init]⟩
  | step rnd s s' _ hstep ih =>
    exact chip8_exec_wide16 rnd _ (tick { s with pc := s.pc + 2 })
      ⟨by have := (chip8_step_ok rnd s s' hstep).1; simp only [tick]; omega, ih.2.1, ih.2.2⟩ s'
      (chip8_step_ok rnd s s' hstep).2
  | key key state s s' _ hkey ih =>
    obtain ⟨kb, rfl⟩ := key_set_frame s s' key state hkey
    exact ih

theorem exec_8_even (op x y : Nat) (c : chip8) (h : even_pc c) : even_pc (exec_8 op x y c) := by
  have e1 : (exec_8 op x y c).pc = c.pc := by
    simp only [exec_8, apply_ite chip8.pc, ite_self]
  have e3 : (exec_8 op x y c).stack = c.stack := by
    simp only [exec_8, apply_ite chip8.stack, ite_self]
  simp only [even_pc, e1, e3]
  exact h

theorem exec_F_even (op x : Nat) (c : chip8) (h : even_pc c) :
    okThen (exec_F op x c) even_pc := by
  obtain ⟨hpc, hst⟩ := h
  have m1 : (c.pc + 65536 - 2) % 65536 % 2 = 0 := by omega
  have m2 : ((c.pc + 65536 - 2) % 65536 + 2) % 65536 % 2 = 0 := by omega
  simp only [exec_F, okThen_ite, okThen_ok, okThen_error]
  cases key_scan c.keyboard 16 0 <;> cases store_regs c.v c.i (x + 1) 0 c.mem <;>
    cases load_regs c.mem c.i (x + 1) 0 c.v <;>
    simp only [okThen_ok, okThen_error, even_pc, hpc, hst, m1, m2, and_self, implies_true,
      ite_self]

theorem chip8_exec_even (rnd op : Nat) (c : chip8) (h : even_pc c)
    (hj : jump_even op (c.v 0) = true) : okThen (chip8_exec rnd op c) even_pc := by
  obtain ⟨q, hq, hsel⟩ := sel_cases op
  have hD : okThen (exec_D (op >>> 8 &&& 15) (op >>> 4 &&& 15) (op >>> 0 &&& 15) c) even_pc :=
    okThen_mono _ _ _ (by rintro c' ⟨v', d', rfl⟩; exact h) (exec_D_frame _ _ _ c)
  have hF := exec_F_even op (op >>> 8 &&& 15) c h
  have h8 := exec_8_even op (op >>> 8 &&& 15) (op >>> 4 &&& 15) c h
  obtain ⟨hpc, hst⟩ := h
  have m1 : (c.pc + 2) % 65536 % 2 = 0 := by omega
  have m3 : (op &&& 4095) % 2 = 0 → ∀ k, Function.update c.stack c.sp c.pc k % 2 = 0 := by
    intro _ k
    rw [Function.update_apply]
    split
    · exact hpc
    · exact hst k
  simp only [jump_even] at hj
  interval_cases q
  case «0» =>
    simp only [hsel, Nat.reduceMul, if_true, Bool.or_eq_true, beq_iff_eq] at hj
    simp only [chip8_exec, hsel, Nat.reduceMul, okThen_ite, okThen_ok, okThen_error, if_true,
      even_pc, hpc, hst, and_self, implies_true]
    split_ifs
    exact ⟨by omega, trivial⟩
  case «1» =>
    simp [hsel] at hj
    simp only [chip8_exec, hsel, Nat.reduceMul, okThen_ok, Nat.reduceEqDiff, if_true, if_false,
      even_pc, hst, hj, and_self, implies_true]
  case «2» =>
    simp [hsel] at hj
    simp only [chip8_exec, hsel, Nat.reduceMul, okThen_ite, okThen_ok, okThen_error,
      Nat.reduceEqDiff, if_true, if_false, even_pc, hj, m3 hj, and_self, implies_true, ite_self]
  case «11» =>
    simp [hsel] at hj
    have : ((op &&& 4095) + c.v 0) % 65536 % 2 = 0 := by omega
    simp only [chip8_exec, hsel, Nat.reduceMul, okThen_ok, Nat.reduceEqDiff, if_true, if_false,
      even_pc, hst, this, and_self, implies_true]
  all_goals
    simp only [chip8_exec, hsel, Nat.reduceMul, okThen_ite, okThen_ok, okThen_error, ite_self,
      apply_ite even_pc, hD, hF, h8, Nat.reduceEqDiff, if_true, if_false] <;>
    simp only [even_pc, hpc, hst, m1, and_self, implies_true, ite_self]

/-! ## Stores into memory -/

/-- The loop of `Fx55` leaves the bytes below `I + i` alone. -/
theorem store_regs_low (v : Nat → Nat) (I : Nat) :
    ∀ (left k : Nat) (mem mem' : Nat → Nat), store_regs v I left k mem = .ok mem' →
      ∀ a, a < I + k → mem' a = mem a := by
  intro left
  induction left with
  | zero =>
    intro k mem mem' h a _
    simp only [store_regs, Except.ok.injEq] at h
    rw [← h]
  | succ left ih =>
    intro k mem mem' h a ha
    simp only [store_regs] at h
    split at h
    · exact absurd h (by simp)
    · rw [ih (k + 1) _ mem' h a (by omega), Function.update_noteq (by omega)]

theorem exec_8_mem (op x y : Nat) (c : chip8) : (exec_8 op x y c).mem = c.mem := by
  simp only [exec_8, apply_ite chip8.mem, ite_self]

theorem exec_F_font (op x : Nat) (c : chip8)
    (hs : (op &&& 0x00FF = 0x0033 ∨ op &&& 0x00FF = 0x0055) → 0x50 ≤ c.i) :
    okThen (exec_F op x c) (fun c' => ∀ a, a < 0x50 → c'.mem a = c.mem a) := by
  by_cases h33 : op &&& 0x00FF = 0x0033
  · have hi := hs (Or.inl h33)
    intro c' h a ha
    simp only [exec_F, h33, Nat.reduceEqDiff, if_true, if_false] at h
    split_ifs at h
    simp only [Except.ok.injEq] at h
    rw [← h]
    simp only [Function.update_apply]
    have a0 : a ≠ c.i + 0 := by omega
    have a1 : a ≠ c.i + 1 := by omega
    have a2 : a ≠ c.i + 2 := by omega
    simp only [a0, a1, a2, if_false]
  · by_cases h55 : op &&& 0x00FF = 0x0055
    · have hi := hs (Or.inr h55)
      intro c' h a ha
      simp only [exec_F, h55, Nat.reduceEqDiff, if_true, if_false] at h
      split at h
      · exact absurd h (by simp)
      · rename_i mem' hm
        simp only [Except.ok.injEq] at h
        rw [← h]
        exact store_regs_low c.v c.i (x + 1) 0 c.mem mem' hm a (by omega)
    · simp only [exec_F, okThen_ite, okThen_ok, okThen_error, h33, h55, if_false]
      cases key_scan c.keyboard 16 0 <;> cases load_regs c.mem c.i (x + 1) 0 c.v <;>
        simp only [okThen_ok, okThen_error, implies_true, ite_self]

theorem chip8_exec_font (rnd op : Nat) (c : chip8) (hs : font_safe op c.i = true) :
    okThen (chip8_exec rnd op c) (fun c' => ∀ a, a < 0x50 → c'.mem a = c.mem a) := by
  obtain ⟨q, hq, hsel⟩ := sel_cases op
  have hD : okThen (exec_D (op >>> 8 &&& 15) (op >>> 4 &&& 15) (op >>> 0 &&& 15) c)
      (fun c' => ∀ a, a < 0x50 → c'.mem a = c.mem a) :=
    okThen_mono _ _ _ (by rintro c' ⟨v', d', rfl⟩; exact fun _ _ => rfl) (exec_D_frame _ _ _ c)
  have hF : op &&& 0xF000 = 0xF000 → okThen (exec_F op (op >>> 8 &&& 15) c)
      (fun c' => ∀ a, a < 0x50 → c'.mem a = c.mem a) := by
    intro h
    apply exec_F_font
    intro hb
    simpa [font_safe, h, hb] using hs
  interval_cases q
  case «15» => simpa [chip8_exec, hsel] using hF hsel
  all_goals
    simp only [chip8_exec, hsel, Nat.reduceMul, okThen_ite, okThen_ok, okThen_error, ite_self,
      apply_ite chip8.mem, exec_8_mem, hD, implies_true, Nat.reduceEqDiff, if_true, if_false]

/-! ## The claims, continued -/

/-- C11: when the next instruction is `00E0`, the step completes, all 256 bytes of the display
buffer are `0` afterwards, and memory, the registers, `i`, `sp` and the stack are unchanged. -/
theorem clear_screen_00E0 (rnd : Nat) (s : chip8)
    (hpc : s.pc + 1 < CHIP8_MEMORY_CAPACITY) (hop : opcode_at s = 0x00E0) :
    ∃ s', chip8_step rnd s = .ok s' ∧
      (∀ k, k < CHIP8_DISPLAY_BUF_SIZE → s'.display k = 0) ∧
      s'.mem = s.mem ∧ s'.v = s.v ∧ s'.i = s.i ∧ s'.sp = s.sp ∧ s'.stack = s.stack := by
  have k1 : (224 : Nat) &&& 61440 = 0 := by decide
  have k2 : (224 : Nat) &&& 4095 = 224 := by decide
  have e : chip8_step rnd s = .ok { tick { s with pc := s.pc + 2 } with display := fun _ => 0 } := by
    rw [chip8_step_eq rnd s hpc, hop]
    simp [chip8_exec, k1, k2]
  exact ⟨_, e, fun _ _ => rfl, rfl, rfl, rfl, rfl, rfl⟩

/-- C11, on a fully lit display with `CLS` at `0x200`. -/
theorem clear_screen_00E0_witness :
    cls_state.display 0 = 0xFF ∧
    ∃ s', chip8_step 0 cls_state = .ok s' ∧
      (∀ k, k < CHIP8_DISPLAY_BUF_SIZE → s'.display k = 0) ∧
      s'.mem = cls_state.mem ∧ s'.v = cls_state.v ∧ s'.i = cls_state.i ∧
      s'.sp = cls_state.sp ∧ s'.stack = cls_state.stack :=
  ⟨rfl, clear_screen_00E0 0 cls_state (by decide) rfl⟩

/-- C12: after `chip8_init`, whatever the struct held before, `pc = 0x200`; `i`, `sp`, `dt`,
`st`, `beep`, every register, stack slot, display byte and keyboard entry are `0`;
`mem[0x000..0x04F]` is the font table in order, so the five bytes from `5 * d` are the glyph
of digit `d`; and every memory byte from `0x050` on is `0`. -/
theorem init_state (c8 : chip8) :
    (chip8_init c8).pc = 0x200 ∧ (chip8_init c8).i = 0 ∧ (chip8_init c8).sp = 0 ∧
    (chip8_init c8).dt = 0 ∧ (chip8_init c8).st = 0 ∧ (chip8_init c8).beep = 0 ∧
    (∀ k, (chip8_init c8).v k = 0) ∧ (∀ k, (chip8_init c8).stack k = 0) ∧
    (∀ k, (chip8_init c8).display k = 0) ∧ (∀ k, (chip8_init c8).keyboard k = 0) ∧
    (List.range 0x50).map (chip8_init c8).mem = fonts ∧
    (∀ d, d < 16 →
      (List.range 5).map (fun j => (chip8_init c8).mem (5 * d + j)) =
        (fonts.drop (5 * d)).take 5) ∧
    (∀ a, 0x50 ≤ a → (chip8_init c8).mem a = 0) := by
  refine ⟨rfl, rfl, rfl, rfl, rfl, rfl, fun _ => rfl, fun _ => rfl, fun _ => rfl,
    fun _ => rfl, rfl, ?_, ?_⟩
  · intro d hd
    interval_cases d <;> rfl
  · intro a ha
    have : ¬ a < fonts.length := by simp [fonts]; omega
    simp only [chip8_init, this, if_false]

/-- C13, the code where the claim fails: a `Dxyn` whose first byte column is the last one
(`Vx mod 64 >= 56`) and whose rows reach row 31 (`Vy mod 32 + n >= 32`) indexes
`display[256]`, outside the 256-byte buffer; the guards `sbufi > CHIP8_DISPLAY_BUF_SIZE`
let the index `256` through. -/
theorem draw_past_buffer (rnd : Nat) (s : chip8) (x y n : Nat)
    (hx : x < 16) (hy : y < 16) (hn : n < 16)
    (hpc : s.pc + 1 < CHIP8_MEMORY_CAPACITY)
    (hop : opcode_at s = 0xD000 + 256 * x + 16 * y + n)
    (hI : s.i + n ≤ CHIP8_MEMORY_CAPACITY)
    (hcol : 56 ≤ s.v x % 64) (hrow : 32 ≤ s.v y % 32 + n) :
    chip8_step rnd s = .error (.display 256) := by
  simp only [CHIP8_MEMORY_CAPACITY] at hI
  obtain ⟨d1, -, -, d4, d5, d6⟩ :=
    decode_fields 13 x y n (by omega) (by omega) (by omega) (by omega)
  have e : 4096 * 13 + 256 * x + 16 * y + n = opcode_at s := by omega
  rw [e] at d1 d4 d5 d6
  rw [chip8_step_eq rnd s hpc, chip8_exec_D _ _ _ d1, d5, d6, Nat.shiftRight_zero, d4]
  apply exec_D_of_fault
  have hb : s.v x % 64 / 8 = 7 := by omega
  simp only [tick, hb]
  apply draw_rows_past_end
  · split_ifs <;> omega
  · split_ifs <;> omega
  · split_ifs <;> omega

/-- C13, on `past_rom`: the fourth step, a two-row draw at `(56, 30)`, indexes `display[256]`. -/
theorem draw_past_buffer_witness :
    chip8_run [0, 0, 0] (boot past_rom) = .ok past_state ∧
    opcode_at past_state = 0xD000 + 256 * 0 + 16 * 1 + 2 ∧
    chip8_step 0 past_state = .error (.display 256) :=
  ⟨rfl, rfl,
    draw_past_buffer 0 past_state 0 1 2 (by decide) (by decide) (by decide) (by decide) rfl
      (by decide) (by decide) (by decide)⟩

/-- C14, as stated, fails: `00EE` executed with `sp = 0` indexes `stack[255]`, and after
sixteen nested calls (`sp = 16`) a further `2nnn` indexes `stack[16]`; both are outside the
16-slot stack. -/
theorem stack_unguarded :
    chip8_step 0 (boot [0x00, 0xEE]) = .error (.stack 255) ∧
    ∃ s, chip8_run (List.replicate 16 0) (boot [0x22, 0x00]) = .ok s ∧ s.sp = 16 ∧
      opcode_at s = 0x2200 ∧ chip8_step 0 s = .error (.stack 16) :=
  ⟨rfl, _, rfl, rfl, rfl, rfl⟩

/-- C14, amended: in every reachable state `sp <= 16`; from such a state a `2nnn` executed
with `sp < 16` completes, writes `stack[sp]` and leaves `sp + 1`, and a `00EE` executed with
`sp > 0` completes, reads `stack[sp - 1]` and leaves `sp - 1`. -/
theorem stack_pointer_bound (s : chip8) (hr : Reachable s) :
    s.sp ≤ 16 ∧
    (∀ rnd nnn, s.pc + 1 < CHIP8_MEMORY_CAPACITY → opcode_at s = 0x2000 + nnn → nnn < 0x1000 →
      s.sp < 16 →
      ∃ s', chip8_step rnd s = .ok s' ∧ s'.sp = s.sp + 1 ∧ s'.stack s.sp = s.pc + 2) ∧
    (∀ rnd, s.pc + 1 < CHIP8_MEMORY_CAPACITY → opcode_at s = 0x00EE → 0 < s.sp →
      ∃ s', chip8_step rnd s = .ok s' ∧ s'.sp = s.sp - 1 ∧ s'.pc = s.stack (s.sp - 1)) := by
  have hsp := reachable_sp s hr
  refine ⟨hsp, ?_, ?_⟩
  · intro rnd nnn hpc hop hnnn hlt
    have hs : opcode_at s &&& 0xF000 = 0x2000 := by rw [hop, and_F000]; omega
    have hsp1 : ¬ 16 ≤ s.sp := by omega
    have e : chip8_step rnd s = .ok
        { tick { s with pc := s.pc + 2 } with
          stack := Function.update s.stack s.sp (s.pc + 2)
          sp := (s.sp + 1) % 256
          pc := opcode_at s &&& 0xFFF } := by
      rw [chip8_step_eq rnd s hpc]
      simp [chip8_exec, hs, tick, hsp1]
    refine ⟨_, e, ?_, ?_⟩
    · show (s.sp + 1) % 256 = s.sp + 1
      omega
    · show Function.update s.stack s.sp (s.pc + 2) s.sp = s.pc + 2
      rw [Function.update_same]
  · intro rnd hpc hop hpos
    have k1 : (238 : Nat) &&& 61440 = 0 := by decide
    have k2 : (238 : Nat) &&& 4095 = 238 := by decide
    have hq : (s.sp + 255) % 256 = s.sp - 1 := by omega
    have hq2 : ¬ 16 ≤ s.sp - 1 := by omega
    have e : chip8_step rnd s = .ok
        { tick { s with pc := s.pc + 2 } with sp := s.sp - 1, pc := s.stack (s.sp - 1) } := by
      rw [chip8_step_eq rnd s hpc, hop]
      simp [chip8_exec, k1, k2, tick, hq, hq2]
    exact ⟨_, e, rfl, rfl⟩

/-- C14, amended, in the state reached by sixteen nested calls, where `sp = 16`. -/
theorem stack_pointer_bound_witness :
    ∃ s, chip8_run (List.replicate 16 0) (boot [0x22, 0x00]) = .ok s ∧ s.sp = 16 ∧ s.sp ≤ 16 :=
  ⟨_, rfl, rfl,
    (stack_pointer_bound _
      (reachable_run (List.replicate 16 0) _ _ (Reachable.boot blank (some [0x22, 0x00]))
        rfl)).1⟩

/-- C15, as stated, fails: `Fx1E` with `I = 0xFFF`, `Vx = 0xFF` leaves `I = 0x10FE`; `Bnnn`
with `nnn = 0xFFF`, `V0 = 0xFF` leaves `pc = 0x10FE`; and the fetch of an instruction stored
at `0xFFE` leaves `pc = 0x1000`. -/
theorem index_and_pc_exceed_12_bits :
    (∃ s, chip8_run [0, 0, 0] (boot [0xAF, 0xFF, 0x60, 0xFF, 0xF0, 0x1E]) = .ok s ∧
      s.i = 0x10FE) ∧
    (∃ s, chip8_run [0, 0] (boot [0x60, 0xFF, 0xBF, 0xFF]) = .ok s ∧ s.pc = 0x10FE) ∧
    (∃ s, chip8_run [0, 0, 0, 0, 0]
        (boot [0x60, 0x60, 0xAF, 0xFE, 0xF0, 0x55, 0x1F, 0xFE]) = .ok s ∧ s.pc = 0x1000) :=
  ⟨⟨_, rfl, rfl⟩, ⟨_, rfl, rfl⟩, ⟨_, rfl, rfl⟩⟩

/-- C15, amended: in every reachable state `i <= 0xFFFF` and `pc <= 0xFFFF`; the two are
16-bit values and are not reduced to the 12-bit address space. -/
theorem index_and_pc_16_bits (s : chip8) (hr : Reachable s) :
    s.i ≤ 0xFFFF ∧ s.pc ≤ 0xFFFF := by
  obtain ⟨hpc, hi, -⟩ := reachable_wide16 s hr
  omega

/-- C15, amended, in the state where `Fx1E` has left `I = 0x10FE`. -/
theorem index_and_pc_16_bits_witness :
    ∃ s, chip8_run [0, 0, 0] (boot [0xAF, 0xFF, 0x60, 0xFF, 0xF0, 0x1E]) = .ok s ∧
      s.i = 0x10FE ∧ s.i ≤ 0xFFFF ∧ s.pc ≤ 0xFFFF :=
  ⟨_, rfl, rfl,
    index_and_pc_16_bits _
      (reachable_run [0, 0, 0] _ _
        (Reachable.boot blank (some [0xAF, 0xFF, 0x60, 0xFF, 0xF0, 0x1E])) rfl)⟩

/-- C16, as stated, fails: `JP 0x203` leaves `pc = 0x203`, which is odd. -/
theorem jump_to_odd_address :
    ∃ s, chip8_step 0 (boot [0x12, 0x03]) = .ok s ∧ s.pc = 0x203 ∧ s.pc % 2 = 1 :=
  ⟨_, rfl, rfl, rfl⟩

/-- C16, amended: after `chip8_init`, `chip8_load` and any completed sequence of steps in
which every executed `0nnn`, `1nnn` and `2nnn` has an even `nnn` and every executed `Bnnn` an
even `nnn + V0`, `pc` is even. -/
theorem pc_even_when_jumps_even (c0 : chip8) (file : Option (List Nat)) (rnds : List Nat)
    (s' : chip8)
    (hrun : chip8_run rnds (chip8_load (chip8_init c0) file).1 = .ok s')
    (hj : along (fun c => jump_even (opcode_at c) (c.v 0)) rnds
      (chip8_load (chip8_init c0) file).1 = true) :
    s'.pc % 2 = 0 := by
  have h0 : even_pc (chip8_load (chip8_init c0) file).1 := by
    obtain ⟨m, hm, -⟩ := chip8_load_frame (chip8_init c0) file
    rw [hm]
    exact ⟨by simp [chip8_init], fun _ => by simp [chip8_init]⟩
  refine (run_invariant even_pc _ ?_ rnds _ s' h0 hj hrun).1
  intro rnd s s1 hP hp hstep
  obtain ⟨hpc, he⟩ := chip8_step_ok rnd s s1 hstep
  exact chip8_exec_even rnd _ (tick { s with pc := s.pc + 2 })
    ⟨by have := hP.1; simp only [tick]; omega, hP.2⟩ hp s1 he

/-- C16, amended, on `CALL 0x204` followed by `RET`. -/
theorem pc_even_when_jumps_even_witness :
    ∃ s, chip8_run [0, 0] (chip8_load (chip8_init blank)
        (some [0x22, 0x04, 0x00, 0x00, 0x00, 0xEE])).1 = .ok s ∧
      s.pc = 0x202 ∧ s.pc % 2 = 0 :=
  ⟨_, rfl, rfl,
    pc_even_when_jumps_even blank (some [0x22, 0x04, 0x00, 0x00, 0x00, 0xEE]) [0, 0] _ rfl rfl⟩

/-- C17, as stated, fails: `Fx33` with `I = 0` overwrites `mem[0..2]`, and `Fx55` with
`I = 0x4F` overwrites `mem[0x4F]`; both lie in the font region. -/
theorem font_overwritten :
    (∃ s, chip8_run [0, 0, 0] (boot [0xA0, 0x00, 0x60, 0x7B, 0xF0, 0x33]) = .ok s ∧
      s.mem 0 = 1 ∧ s.mem 1 = 12 ∧ s.mem 2 = 3 ∧ fonts.getD 0 0 = 0xF0) ∧
    (∃ s, chip8_run [0, 0, 0] (boot [0xA0, 0x4F, 0x60, 0x7B, 0xF0, 0x55]) = .ok s ∧
      s.mem 0x4F = 0x7B ∧ fonts.getD 0x4F 0 = 0x80) :=
  ⟨⟨_, rfl, rfl, rfl, rfl, rfl⟩, ⟨_, rfl, rfl, rfl⟩⟩

/-- C17, amended: after `chip8_init`, `chip8_load` and any completed sequence of steps in
which every executed `Fx33` and `Fx55` has `I >= 0x050`, every byte of `mem[0x000..0x04F]`
still equals the font-table byte. -/
theorem font_region_kept (c0 : chip8) (file : Option (List Nat)) (rnds : List Nat)
    (s' : chip8)
    (hrun : chip8_run rnds (chip8_load (chip8_init c0) file).1 = .ok s')
    (hsafe : along (fun c => font_safe (opcode_at c) c.i) rnds
      (chip8_load (chip8_init c0) file).1 = true) :
    ∀ a, a < 0x50 → s'.mem a = fonts.getD a 0 := by
  have h0 : ∀ a, a < 0x50 → (chip8_load (chip8_init c0) file).1.mem a = fonts.getD a 0 := by
    intro a ha
    obtain ⟨m, hm, hlow⟩ := chip8_load_frame (chip8_init c0) file
    rw [hm]
    show m a = _
    rw [hlow a (by omega)]
    have : a < fonts.length := by simp [fonts]; omega
    simp only [chip8_init, this, if_true]
  refine run_invariant (fun s => ∀ a, a < 0x50 → s.mem a = fonts.getD a 0) _ ?_ rnds _ s' h0
    hsafe hrun
  intro rnd s s1 hP hp hstep a ha
  obtain ⟨-, he⟩ := chip8_step_ok rnd s s1 hstep
  rw [chip8_exec_font rnd _ (tick { s with pc := s.pc + 2 }) hp s1 he a ha]
  exact hP a ha

/-- C17, amended, on a ROM whose `Fx33` stores at `0x300`. -/
theorem font_region_kept_witness :
    ∃ s, chip8_run [0, 0, 0] (chip8_load (chip8_init blank)
        (some [0xA3, 0x00, 0x60, 0x7B, 0xF0, 0x33])).1 = .ok s ∧
      s.mem 0x300 = 1 ∧ ∀ a, a < 0x50 → s.mem a = fonts.getD a 0 :=
  ⟨_, rfl, rfl,
    font_region_kept blank (some [0xA3, 0x00, 0x60, 0x7B, 0xF0, 0x33]) [0, 0, 0] _ rfl rfl⟩

/-- C18, the code on words outside the documented patterns: `8018`, `F0FF` and `E000` are
executed without any report (only `pc` advances), and `5011`, `901F` are executed as the
skips `5xy0`, `9xy0`, so that `pc` advances by 4, again without a report. -/
theorem unknown_opcodes_silent :
    (∃ s', chip8_step 0 (boot [0x80, 0x18]) = .ok s' ∧ s'.out = [] ∧ s'.pc = 0x202) ∧
    (∃ s', chip8_step 0 (boot [0xF0, 0xFF]) = .ok s' ∧ s'.out = [] ∧ s'.pc = 0x202) ∧
    (∃ s', chip8_step 0 (boot [0xE0, 0x00]) = .ok s' ∧ s'.out = [] ∧ s'.pc = 0x202) ∧
    (∃ s', chip8_step 0 (boot [0x50, 0x11]) = .ok s' ∧ s'.out = [] ∧ s'.pc = 0x204) ∧
    (∃ s', chip8_step 0 (boot [0x60, 0x01, 0x90, 0x1F]) = .ok s' ∧
      ∃ s'', chip8_step 0 s' = .ok s'' ∧ s''.out = [] ∧ s''.pc = 0x206) :=
  ⟨⟨_, rfl, rfl, rfl⟩, ⟨_, rfl, rfl, rfl⟩, ⟨_, rfl, rfl, rfl⟩, ⟨_, rfl, rfl, rfl⟩,
    ⟨_, rfl, _, rfl, rfl, rfl⟩⟩

/-- C19: a completed step leaves `beep = 1` if `st = 1` held before it and leaves `beep` as it
was otherwise; and when the executed instruction is not `Fx18`, it leaves `st - 1` if
`st > 0` and `0` otherwise. -/
theorem beep_and_sound_timer (rnd : Nat) (s s' : chip8) (h : chip8_step rnd s = .ok s') :
    s'.beep = (if s.st = 1 then 1 else s.beep) ∧
    (is_Fx18 (opcode_at s) = false → s'.st = s.st - 1) := by
  obtain ⟨-, he⟩ := chip8_step_ok rnd s s' h
  refine ⟨?_, fun hne => ?_⟩
  · rw [chip8_exec_beep _ _ _ _ he]
    rfl
  · rw [chip8_exec_st _ _ _ hne _ he]
    simp only [tick]
    split_ifs <;> omega

/-- C19, on a step started with `st = 1`: it raises `beep` and leaves `st = 0`. -/
theorem beep_and_sound_timer_witness :
    chip8_step 0 buzz_state = .ok { buzz_state with st := 0, beep := 1 } ∧
    ({ buzz_state with st := 0, beep := 1 }.beep =
        (if buzz_state.st = 1 then 1 else buzz_state.beep) ∧
      (is_Fx18 (opcode_at buzz_state) = false →
        { buzz_state with st := 0, beep := 1 }.st = buzz_state.st - 1)) :=
  ⟨rfl, beep_and_sound_timer 0 buzz_state _ rfl⟩

/-- C20, the code at `Vx = 0x80`: the ROM `6180 810E` shifts `V1` left; the step leaves
`V1 = 0` and `VF = 128`, where the claim asks for `VF = 1`. -/
theorem shl_8xyE_flag :
    ∃ s', chip8_run [0, 0] (boot [0x61, 0x80, 0x81, 0x0E]) = .ok s' ∧
      s'.v 1 = 0 ∧ s'.v 0xF = 128 :=
  ⟨_, rfl, rfl, rfl⟩

/-! ## Pixels of a draw -/

theorem draw_rows_quiet (mem : Nat → Nat) (I sbufx rshift lshift : Nat) (rows : Nat) :
    ∀ (i sy : Nat) (d : Nat → Nat) (vf : Nat) (d' : Nat → Nat) (vf' : Nat),
      sy + rows ≤ 32 → I + i + rows ≤ 4096 → sbufx ≤ 7 → (sbufx < 7 ∨ sy + rows ≤ 31) →
      draw_rows mem I sbufx rshift lshift rows i sy d vf = .ok (d', vf') →
      (∀ r, r < rows →
        d (sbufx + (sy + r) * 8) &&& (mem (I + i + r) >>> rshift) = 0 ∧
        d (sbufx + (sy + r) * 8 + 1) &&& (mem (I + i + r) <<< lshift) = 0) →
      vf' = vf := by
  induction rows with
  | zero =>
    intro i sy d vf d' vf' _ _ _ _ h _
    simp only [draw_rows, Except.ok.injEq, Prod.mk.injEq] at h
    exact h.2.symm
  | succ rows ih =>
    intro i sy d vf d' vf' hrow hmem hb hin h hq
    rw [draw_rows_succ _ _ _ _ _ _ _ _ _ _ (by omega) (by omega)] at h
    have h0 := hq 0 (by omega)
    simp only [Nat.add_zero] at h0
    have hhigh : ∀ j, sbufx + sy * 8 + 1 < j →
        row_display (mem (I + i)) (sbufx + sy * 8) rshift lshift d j = d j := by
      intro j hj
      have a1 : j ≠ sbufx + sy * 8 + 1 := by omega
      have a2 : j ≠ sbufx + sy * 8 := by omega
      simp only [row_display, a1, a2, if_false]
    rw [ih (i + 1) (sy + 1) _ _ d' vf' (by omega) (by omega) hb (by omega) h]
    · simp only [row_vf, h0.1, h0.2, ne_eq, not_true_eq_false, or_self, if_false]
    · intro r hr
      have := hq (r + 1) (by omega)
      rw [show sy + 1 + r = sy + (r + 1) by omega,
        show I + (i + 1) + r = I + i + (r + 1) by omega,
        hhigh _ (by omega), hhigh _ (by omega)]
      exact this

theorem and_ne_zero_iff_bit (a b : Nat) :
    a &&& b ≠ 0 ↔ ∃ i, a.testBit i = true ∧ b.testBit i = true := by
  constructor
  · intro h
    obtain ⟨i, hi⟩ := Nat.ne_zero_implies_bit_true h
    rw [Nat.testBit_and, Bool.and_eq_true] at hi
    exact ⟨i, hi⟩
  · rintro ⟨i, ha, hb⟩ h0
    have := congrArg (fun m => Nat.testBit m i) h0
    simp [ha, hb] at this

theorem testBit_byte_high (m i : Nat) (hm : m < 256) (hi : 8 ≤ i) : m.testBit i = false := by
  apply Nat.testBit_lt_two_pow
  calc m < 2 ^ 8 := by simpa using hm
    _ ≤ 2 ^ i := Nat.pow_le_pow_right (by norm_num) hi

theorem pixel_drawn (sprite sbufi rshift c : Nat) (d d' : Nat → Nat)
    (hr : rshift < 8) (hc : c < 8)
    (h1 : d' sbufi = (d sbufi ^^^ (sprite >>> rshift)) % 256)
    (h2 : d' (sbufi + 1) = (d (sbufi + 1) ^^^ (sprite <<< (8 - rshift))) % 256) :
    pixel d' (8 * sbufi + rshift + c) =
      (pixel d (8 * sbufi + rshift + c) ^^ sprite.testBit (7 - c)) := by
  by_cases hlt : rshift + c < 8
  · have e1 : (8 * sbufi + rshift + c) / 8 = sbufi := by omega
    have e2 : (8 * sbufi + rshift + c) % 8 = rshift + c := by omega
    have e3 : rshift + (7 - (rshift + c)) = 7 - c := by omega
    have e4 : 7 - (rshift + c) < 8 := by omega
    simp only [pixel, e1, e2, h1, testBit_mod_256, e4, decide_True, Bool.true_and,
      Nat.testBit_xor, Nat.testBit_shiftRight, e3]
  · have e1 : (8 * sbufi + rshift + c) / 8 = sbufi + 1 := by omega
    have e2 : (8 * sbufi + rshift + c) % 8 = rshift + c - 8 := by omega
    have e3 : 7 - (rshift + c - 8) - (8 - rshift) = 7 - c := by omega
    have e4 : 7 - (rshift + c - 8) < 8 := by omega
    have e5 : 8 - rshift ≤ 7 - (rshift + c - 8) := by omega
    simp only [pixel, e1, e2, h2, testBit_mod_256, e4, decide_True, Bool.true_and,
      Nat.testBit_xor, Nat.testBit_shiftLeft, e3, e5, ge_iff_le]

/-- A pixel of the two target bytes of a row that no sprite bit lands on keeps its value. -/
theorem pixel_kept_first (sprite sbufi rshift p : Nat) (d d' : Nat → Nat)
    (hs : sprite < 256) (hp : p / 8 = sbufi) (hlow : p % 8 < rshift)
    (h1 : d' sbufi = (d sbufi ^^^ (sprite >>> rshift)) % 256) :
    pixel d' p = pixel d p := by
  have e4 : 7 - p % 8 < 8 := by omega
  have e5 : sprite.testBit (rshift + (7 - p % 8)) = false :=
    testBit_byte_high _ _ hs (by omega)
  simp only [pixel, hp, h1, testBit_mod_256, e4, decide_True, Bool.true_and,
    Nat.testBit_xor, Nat.testBit_shiftRight, e5, Bool.xor_false]

theorem pixel_kept_second (sprite sbufi rshift p : Nat) (d d' : Nat → Nat)
    (hp : p / 8 = sbufi + 1) (hhigh : rshift ≤ p % 8)
    (h2 : d' (sbufi + 1) = (d (sbufi + 1) ^^^ (sprite <<< (8 - rshift))) % 256) :
    pixel d' p = pixel d p := by
  have e4 : 7 - p % 8 < 8 := by omega
  have e5 : ¬ 8 - rshift ≤ 7 - p % 8 := by omega
  simp only [pixel, hp, h2, testBit_mod_256, e4, decide_True, Bool.true_and,
    Nat.testBit_xor, Nat.testBit_shiftLeft, e5, ge_iff_le, decide_False, Bool.false_and,
    Bool.xor_false]


theorem collision_iff_pixels (sprite sbufi rshift : Nat) (d : Nat → Nat)
    (hr : rshift < 8) (hs : sprite < 256) (hd2 : d (sbufi + 1) < 256) :
    (d sbufi &&& (sprite >>> rshift) ≠ 0 ∨ d (sbufi + 1) &&& (sprite <<< (8 - rshift)) ≠ 0) ↔
      ∃ c, c < 8 ∧ pixel d (8 * sbufi + rshift + c) = true ∧ sprite.testBit (7 - c) = true := by
  constructor
  · rintro (h | h)
    · obtain ⟨i, hi1, hi2⟩ := (and_ne_zero_iff_bit _ _).1 h
      rw [Nat.testBit_shiftRight] at hi2
      have hlt : rshift + i < 8 := by
        by_contra hge
        rw [testBit_byte_high _ _ hs (by omega)] at hi2
        exact Bool.false_ne_true hi2
      refine ⟨7 - (rshift + i), by omega, ?_, ?_⟩
      · have e1 : (8 * sbufi + rshift + (7 - (rshift + i))) / 8 = sbufi := by omega
        have e2 : 7 - (8 * sbufi + rshift + (7 - (rshift + i))) % 8 = i := by omega
        simp only [pixel, e1, e2, hi1]
      · have e3 : 7 - (7 - (rshift + i)) = rshift + i := by omega
        rw [e3]; exact hi2
    · obtain ⟨i, hi1, hi2⟩ := (and_ne_zero_iff_bit _ _).1 h
      have hlt : i < 8 := by
        by_contra hge
        rw [testBit_byte_high _ _ hd2 (by omega)] at hi1
        exact Bool.false_ne_true hi1
      rw [Nat.testBit_shiftLeft, Bool.and_eq_true, decide_eq_true_eq] at hi2
      obtain ⟨hge, hi2⟩ := hi2
      refine ⟨15 - i - rshift, by omega, ?_, ?_⟩
      · have e1 : (8 * sbufi + rshift + (15 - i - rshift)) / 8 = sbufi + 1 := by omega
        have e2 : 7 - (8 * sbufi + rshift + (15 - i - rshift)) % 8 = i := by omega
        simp only [pixel, e1, e2, hi1]
      · have e3 : 7 - (15 - i - rshift) = i - (8 - rshift) := by omega
        rw [e3]; exact hi2
  · rintro ⟨c, hc, hp, hb⟩
    by_cases hlt : rshift + c < 8
    · left
      apply (and_ne_zero_iff_bit _ _).2
      refine ⟨7 - (rshift + c), ?_, ?_⟩
      · have e1 : (8 * sbufi + rshift + c) / 8 = sbufi := by omega
        have e2 : (8 * sbufi + rshift + c) % 8 = rshift + c := by omega
        simpa only [pixel, e1, e2] using hp
      · have e3 : rshift + (7 - (rshift + c)) = 7 - c := by omega
        rw [Nat.testBit_shiftRight, e3]; exact hb
    · right
      apply (and_ne_zero_iff_bit _ _).2
      refine ⟨7 - (rshift + c - 8), ?_, ?_⟩
      · have e1 : (8 * sbufi + rshift + c) / 8 = sbufi + 1 := by omega
        have e2 : (8 * sbufi + rshift + c) % 8 = rshift + c - 8 := by omega
        simpa only [pixel, e1, e2] using hp
      · have e3 : 7 - (rshift + c - 8) - (8 - rshift) = 7 - c := by omega
        have e5 : 8 - rshift ≤ 7 - (rshift + c - 8) := by omega
        simp only [Nat.testBit_shiftLeft, e3, e5, ge_iff_le, decide_True, Bool.true_and, hb]

/-- One `Dxyn` step in terms of the row loop, for every register pair. -/
theorem draw_step_any (rnd : Nat) (s : chip8) (x y n : Nat) (hx : x < 16) (hy : y < 16)
    (hn : n < 16) (hpc : s.pc + 1 < 4096)
    (hop : opcode_at s = 0xD000 + 256 * x + 16 * y + n)
    (d' : Nat → Nat) (vf' : Nat)
    (h : draw_rows s.mem s.i (s.v x % 64 / 8) (s.v x % 64 % 8) (8 - s.v x % 64 % 8)
      (if n + s.v y % 32 > 32 then 32 - s.v y % 32 else n) 0 (s.v y % 32) s.display 0 =
        .ok (d', vf')) :
    chip8_step rnd s = .ok { tick { s with pc := s.pc + 2 } with
      v := Function.update s.v 0xF vf', display := d' } := by
  obtain ⟨d1, -, -, d4, d5, d6⟩ :=
    decode_fields 13 x y n (by omega) (by omega) (by omega) (by omega)
  have e : 4096 * 13 + 256 * x + 16 * y + n = opcode_at s := by omega
  rw [e] at d1 d4 d5 d6
  rw [chip8_step_eq rnd s (by simpa using hpc), chip8_exec_D _ _ _ d1, d5, d6,
    Nat.shiftRight_zero, d4]
  exact exec_D_of_draw x y n _ d' vf' h


/-- One `Dxyn` step whose rows stay in the buffer, pixel by pixel, over the linear pixel
index `64 * row + col`: bit `7 - c` of sprite row `r` is XORed into the pixel
`64 * (sy + r) + sx + c`, every other pixel is kept, and, the display bytes being bytes,
`v[0xF]` is `1` exactly when some set sprite bit meets a set pixel. -/
theorem draw_step_pixels (rnd : Nat) (s : chip8) (x y n : Nat) (hx : x < 16) (hy : y < 16)
    (hn : n < 16) (hpc : s.pc + 1 < 4096)
    (hop : opcode_at s = 0xD000 + 256 * x + 16 * y + n)
    (hI : s.i + n ≤ 4096)
    (hm : ∀ r, r < n → s.mem (s.i + r) < 256)
    (hin : s.v x % 64 < 56 ∨ s.v y % 32 + n ≤ 31) :
    ∃ s', chip8_step rnd s = .ok s' ∧
      (∀ r c, r < min n (32 - s.v y % 32) → c < 8 →
        pixel s'.display (64 * (s.v y % 32 + r) + s.v x % 64 + c) =
          (pixel s.display (64 * (s.v y % 32 + r) + s.v x % 64 + c) ^^
            (s.mem (s.i + r)).testBit (7 - c))) ∧
      (∀ p, (∀ r c, r < min n (32 - s.v y % 32) → c < 8 →
          p ≠ 64 * (s.v y % 32 + r) + s.v x % 64 + c) →
        pixel s'.display p = pixel s.display p) ∧
      ((∀ k, k < 256 → s.display k < 256) →
        ((∃ r c, r < min n (32 - s.v y % 32) ∧ c < 8 ∧
            pixel s.display (64 * (s.v y % 32 + r) + s.v x % 64 + c) = true ∧
            (s.mem (s.i + r)).testBit (7 - c) = true) → s'.v 0xF = 1) ∧
        ((¬ ∃ r c, r < min n (32 - s.v y % 32) ∧ c < 8 ∧
            pixel s.display (64 * (s.v y % 32 + r) + s.v x % 64 + c) = true ∧
            (s.mem (s.i + r)).testBit (7 - c) = true) → s'.v 0xF = 0)) := by
  have hrows : (if n + s.v y % 32 > 32 then 32 - s.v y % 32 else n) = min n (32 - s.v y % 32) := by
    split_ifs <;> omega
  have hsx : s.v x % 64 < 64 := Nat.mod_lt _ (by norm_num)
  have hsy : s.v y % 32 < 32 := Nat.mod_lt _ (by norm_num)
  have hidx : ∀ r c, 64 * (s.v y % 32 + r) + s.v x % 64 + c =
      8 * (s.v x % 64 / 8 + (s.v y % 32 + r) * 8) + s.v x % 64 % 8 + c := by
    intro r c; omega
  obtain ⟨d', vf', hdr, hframe, hrow, -, hcol⟩ :=
    draw_rows_spec s.mem s.i (s.v x % 64 / 8) (s.v x % 64 % 8) (8 - s.v x % 64 % 8)
      (min n (32 - s.v y % 32)) 0 (s.v y % 32) s.display 0
      (by omega) (by omega) (by omega) (by omega)
  simp only [Nat.add_zero] at hrow hcol
  have hquiet := draw_rows_quiet s.mem s.i (s.v x % 64 / 8) (s.v x % 64 % 8)
    (8 - s.v x % 64 % 8) (min n (32 - s.v y % 32)) 0 (s.v y % 32) s.display 0 d' vf'
    (by omega) (by omega) (by omega) (by omega) hdr
  simp only [Nat.add_zero] at hquiet
  have hcoll : (∀ k, k < 256 → s.display k < 256) → ∀ r, r < min n (32 - s.v y % 32) →
      ((s.display (s.v x % 64 / 8 + (s.v y % 32 + r) * 8) &&&
          (s.mem (s.i + r) >>> (s.v x % 64 % 8)) ≠ 0 ∨
        s.display (s.v x % 64 / 8 + (s.v y % 32 + r) * 8 + 1) &&&
          (s.mem (s.i + r) <<< (8 - s.v x % 64 % 8)) ≠ 0) ↔
      ∃ c, c < 8 ∧ pixel s.display (64 * (s.v y % 32 + r) + s.v x % 64 + c) = true ∧
        (s.mem (s.i + r)).testBit (7 - c) = true) := by
    intro hd r hr
    simp only [hidx]
    exact collision_iff_pixels _ _ _ _ (by omega) (hm r (by omega)) (hd _ (by omega))
  rw [← hrows] at hdr
  refine ⟨_, draw_step_any rnd s x y n hx hy hn hpc hop d' vf' hdr, ?_, ?_, fun hd => ⟨?_, ?_⟩⟩
  · intro r c hr hc
    rw [hidx]
    exact pixel_drawn _ _ _ c s.display d' (by omega) hc (hrow r hr).1 (hrow r hr).2
  · intro p hp
    show pixel d' p = pixel s.display p
    by_cases ht : ∃ r, r < min n (32 - s.v y % 32) ∧
        (p / 8 = s.v x % 64 / 8 + (s.v y % 32 + r) * 8 ∨
         p / 8 = s.v x % 64 / 8 + (s.v y % 32 + r) * 8 + 1)
    · obtain ⟨r, hr, h1 | h1⟩ := ht
      · have hlow : p % 8 < s.v x % 64 % 8 := by
          by_contra hge
          exact hp r (p % 8 - s.v x % 64 % 8) hr (by omega) (by omega)
        exact pixel_kept_first _ _ _ p s.display d' (hm r (by omega)) h1 hlow (hrow r hr).1
      · have hhigh : s.v x % 64 % 8 ≤ p % 8 := by
          by_contra hlt
          exact hp r (8 + p % 8 - s.v x % 64 % 8) hr (by omega) (by omega)
        exact pixel_kept_second _ _ _ p s.display d' h1 hhigh (hrow r hr).2
    · have hnt : ∀ r, r < min n (32 - s.v y % 32) →
          p / 8 ≠ s.v x % 64 / 8 + (s.v y % 32 + r) * 8 ∧
          p / 8 ≠ s.v x % 64 / 8 + (s.v y % 32 + r) * 8 + 1 := by
        intro r hr
        exact ⟨fun h1 => ht ⟨r, hr, Or.inl h1⟩, fun h1 => ht ⟨r, hr, Or.inr h1⟩⟩
      simp only [pixel, hframe _ hnt]
  · rintro ⟨r, c, hr, hc, hp, hb⟩
    show Function.update s.v 0xF vf' 0xF = 1
    rw [Function.update_same]
    exact hcol ⟨r, hr, (hcoll hd r hr).2 ⟨c, hc, hp, hb⟩⟩
  · intro hno
    show Function.update s.v 0xF vf' 0xF = 0
    rw [Function.update_same]
    apply hquiet
    intro r hr
    have h0 := (not_congr (hcoll hd r hr)).2 (fun ⟨c, hc, hp, hb⟩ => hno ⟨r, c, hr, hc, hp, hb⟩)
    rw [not_or, not_not, not_not] at h0
    exact h0

/-- Pixel `(col, row)`, the linear pixel `64 * row + col`, is bit `7 - col mod 8` of
`display[row * 8 + col / 8]`. -/
theorem pixel_col_row (d : Nat → Nat) (col row : Nat) :
    pixel d (64 * row + col) = (d (row * 8 + col / 8)).testBit (7 - col % 8) := by
  have e1 : (64 * row + col) / 8 = row * 8 + col / 8 := by omega
  have e2 : (64 * row + col) % 8 = col % 8 := by omega
  simp only [pixel, e1, e2]

/-! ## The draw on the bytes of the struct: lemmas -/

theorem draw_rows_struct_succ (mem : Nat → Nat) (I sbufx rshift lshift rows i sy : Nat)
    (b : Nat → Nat) (vf : Nat)
    (h1 : I + i < 4096) (h2 : sbufx + sy * 8 + 1 ≤ 256) :
    draw_rows_struct mem I sbufx rshift lshift (rows + 1) i sy b vf =
      draw_rows_struct mem I sbufx rshift lshift rows (i + 1) (sy + 1)
        (row_display (mem (I + i)) (sbufx + sy * 8) rshift lshift b)
        (row_vf (mem (I + i)) (sbufx + sy * 8) rshift lshift b vf) := by
  have c1 : ¬ 4096 ≤ I + i := by omega
  have c2 : ¬ sbufx + sy * 8 > 256 := by omega
  have c4 : ¬ sbufx + sy * 8 + 1 > 256 := by omega
  have c6 : sbufx + sy * 8 + 1 ≠ sbufx + sy * 8 := by omega
  have ed : (Function.update (Function.update b (sbufx + sy * 8)
        ((b (sbufx + sy * 8) ^^^ mem (I + i) >>> rshift) % 256)) (sbufx + sy * 8 + 1)
        ((b (sbufx + sy * 8 + 1) ^^^ mem (I + i) <<< lshift) % 256)) =
      row_display (mem (I + i)) (sbufx + sy * 8) rshift lshift b := by
    funext j
    simp only [row_display, Function.update_apply]
  have ev : (if b (sbufx + sy * 8 + 1) &&& mem (I + i) <<< lshift ≠ 0 then 1
        else if b (sbufx + sy * 8) &&& mem (I + i) >>> rshift ≠ 0 then 1 else vf) =
      row_vf (mem (I + i)) (sbufx + sy * 8) rshift lshift b vf := by
    simp only [row_vf]
    split_ifs <;> simp_all
  simp only [draw_rows_struct, CHIP8_MEMORY_CAPACITY, CHIP8_DISPLAY_BUF_SIZE,
    CHIP8_DISPLAY_BUF_WIDTH, CHIP8_DISPLAY_BUF_HEIGHT, Nat.reduceMul, c1, c2, c4, if_false,
    Function.update_noteq c6, ed, ev]

/-- The row loop on the bytes of the struct, for every origin on the screen: it completes,
changes only the two bytes of each row, XORs the two halves of the sprite row into them,
and leaves the flag at `1` exactly when it was `1` or a half overlaps a set bit. -/
theorem draw_rows_struct_spec (mem : Nat → Nat) (I sbufx rshift lshift : Nat) (rows : Nat) :
    ∀ (i sy : Nat) (b : Nat → Nat) (vf : Nat),
      sy + rows ≤ 32 → I + i + rows ≤ 4096 → sbufx ≤ 7 →
      ∃ b' vf', draw_rows_struct mem I sbufx rshift lshift rows i sy b vf = .ok (b', vf') ∧
        (∀ j, (∀ r, r < rows → j ≠ sbufx + (sy + r) * 8 ∧ j ≠ sbufx + (sy + r) * 8 + 1) →
          b' j = b j) ∧
        (∀ r, r < rows →
          b' (sbufx + (sy + r) * 8) =
            (b (sbufx + (sy + r) * 8) ^^^ (mem (I + i + r) >>> rshift)) % 256 ∧
          b' (sbufx + (sy + r) * 8 + 1) =
            (b (sbufx + (sy + r) * 8 + 1) ^^^ (mem (I + i + r) <<< lshift)) % 256) ∧
        (vf = 1 → vf' = 1) ∧
        ((∃ r, r < rows ∧
            (b (sbufx + (sy + r) * 8) &&& (mem (I + i + r) >>> rshift) ≠ 0 ∨
             b (sbufx + (sy + r) * 8 + 1) &&& (mem (I + i + r) <<< lshift) ≠ 0)) →
          vf' = 1) ∧
        ((∀ r, r < rows →
            b (sbufx + (sy + r) * 8) &&& (mem (I + i + r) >>> rshift) = 0 ∧
            b (sbufx + (sy + r) * 8 + 1) &&& (mem (I + i + r) <<< lshift) = 0) →
          vf' = vf) := by
  induction rows with
  | zero =>
    intro i sy b vf _ _ _
    refine ⟨b, vf, rfl, fun _ _ => rfl, fun r hr => absurd hr (by omega), id, ?_, fun _ => rfl⟩
    rintro ⟨r, hr, -⟩
    omega
  | succ rows ih =>
    intro i sy b vf hrow hmem hb
    obtain ⟨b', vf', hrun, hframe, hrows, hmono, hcol, hquiet⟩ :=
      ih (i + 1) (sy + 1)
        (row_display (mem (I + i)) (sbufx + sy * 8) rshift lshift b)
        (row_vf (mem (I + i)) (sbufx + sy * 8) rshift lshift b vf)
        (by omega) (by omega) hb
    have hlow : ∀ j, j ≤ sbufx + sy * 8 + 1 → b' j =
        row_display (mem (I + i)) (sbufx + sy * 8) rshift lshift b j := by
      intro j hj
      apply hframe
      intro r _
      constructor <;> omega
    have hhigh : ∀ j, sbufx + sy * 8 + 1 < j →
        row_display (mem (I + i)) (sbufx + sy * 8) rshift lshift b j = b j := by
      intro j hj
      have a1 : j ≠ sbufx + sy * 8 + 1 := by omega
      have a2 : j ≠ sbufx + sy * 8 := by omega
      simp only [row_display, a1, a2, if_false]
    refine ⟨b', vf', ?_, ?_, ?_, ?_, ?_, ?_⟩
    · rw [draw_rows_struct_succ _ _ _ _ _ _ _ _ _ _ (by omega) (by omega)]
      exact hrun
    · intro j hj
      have h0 := hj 0 (by omega)
      simp only [Nat.add_zero] at h0
      rw [hframe j (fun r hr => by
        have := hj (r + 1) (by omega)
        rw [show sy + (r + 1) = sy + 1 + r by omega] at this
        exact this)]
      simp only [row_display, h0.1, h0.2, if_false]
    · intro r hr
      cases r with
      | zero =>
        simp only [Nat.add_zero]
        rw [hlow _ (by omega), hlow _ (by omega)]
        have a1 : sbufx + sy * 8 ≠ sbufx + sy * 8 + 1 := by omega
        simp only [row_display, a1, if_false, if_true]
        exact ⟨trivial, trivial⟩
      | succ r =>
        have := hrows r (by omega)
        rw [show sy + 1 + r = sy + (r + 1) by omega,
          show I + (i + 1) + r = I + i + (r + 1) by omega] at this
        rw [hhigh _ (by omega), hhigh _ (by omega)] at this
        exact this
    · intro hv
      apply hmono
      simp only [row_vf, hv, ite_self]
    · rintro ⟨r, hr, hc⟩
      cases r with
      | zero =>
        apply hmono
        simp only [Nat.add_zero] at hc
        simp only [row_vf, hc, if_true]
      | succ r =>
        apply hcol
        refine ⟨r, by omega, ?_⟩
        rw [show sy + 1 + r = sy + (r + 1) by omega,
          show I + (i + 1) + r = I + i + (r + 1) by omega,
          hhigh _ (by omega), hhigh _ (by omega)]
        exact hc
    · intro hq
      have h0 := hq 0 (by omega)
      simp only [Nat.add_zero] at h0
      rw [hquiet (fun r hr => by
        have := hq (r + 1) (by omega)
        rw [show sy + 1 + r = sy + (r + 1) by omega,
          show I + (i + 1) + r = I + i + (r + 1) by omega,
          hhigh _ (by omega), hhigh _ (by omega)]
        exact this)]
      simp only [row_vf, h0.1, h0.2, ne_eq, not_true_eq_false, or_self, if_false]

/-- Where the row loop that faults outside `display` completes, the loop on the bytes of
the struct completes with the same display bytes and flag, and touches no other byte. -/
theorem draw_rows_struct_of_ok (mem : Nat → Nat) (I sbufx rshift lshift : Nat) (rows : Nat) :
    ∀ (i sy : Nat) (d : Nat → Nat) (vf : Nat) (b d' : Nat → Nat) (vf' : Nat),
      (∀ j, j < 256 → b j = d j) →
      draw_rows mem I sbufx rshift lshift rows i sy d vf = .ok (d', vf') →
      ∃ b', draw_rows_struct mem I sbufx rshift lshift rows i sy b vf = .ok (b', vf') ∧
        (∀ j, j < 256 → b' j = d' j) ∧ (∀ j, 256 ≤ j → b' j = b j) ∧
        (∀ j, 256 ≤ j → d' j = d j) := by
  induction rows with
  | zero =>
    intro i sy d vf b d' vf' hb h
    simp only [draw_rows, Except.ok.injEq, Prod.mk.injEq] at h
    obtain ⟨rfl, rfl⟩ := h
    exact ⟨b, rfl, hb, fun _ _ => rfl, fun _ _ => rfl⟩
  | succ rows ih =>
    intro i sy d vf b d' vf' hb h
    by_cases c1 : 4096 ≤ I + i
    · simp [draw_rows, c1] at h
    by_cases c2 : sbufx + sy * 8 > 256
    · simp only [draw_rows, CHIP8_MEMORY_CAPACITY, CHIP8_DISPLAY_BUF_SIZE,
        CHIP8_DISPLAY_BUF_WIDTH, CHIP8_DISPLAY_BUF_HEIGHT, Nat.reduceMul, c1, c2, if_false,
        if_true, Except.ok.injEq, Prod.mk.injEq] at h
      obtain ⟨rfl, rfl⟩ := h
      refine ⟨b, ?_, hb, fun _ _ => rfl, fun _ _ => rfl⟩
      simp only [draw_rows_struct, CHIP8_MEMORY_CAPACITY, CHIP8_DISPLAY_BUF_SIZE,
        CHIP8_DISPLAY_BUF_WIDTH, CHIP8_DISPLAY_BUF_HEIGHT, Nat.reduceMul, c1, c2, if_false,
        if_true]
    by_cases c3 : 256 ≤ sbufx + sy * 8
    · simp [draw_rows, c1, c2, c3] at h
    by_cases c5 : 256 ≤ sbufx + sy * 8 + 1
    · have c4 : ¬ sbufx + sy * 8 + 1 > 256 := by omega
      simp [draw_rows, c1, c2, c3, c4, c5] at h
    rw [draw_rows_succ _ _ _ _ _ _ _ _ _ _ (by omega) (by omega)] at h
    have hb1 : ∀ j, j < 256 →
        row_display (mem (I + i)) (sbufx + sy * 8) rshift lshift b j =
        row_display (mem (I + i)) (sbufx + sy * 8) rshift lshift d j := by
      intro j hj
      simp only [row_display, hb _ (show sbufx + sy * 8 + 1 < 256 by omega),
        hb _ (show sbufx + sy * 8 < 256 by omega), hb j hj]
    have hv1 : row_vf (mem (I + i)) (sbufx + sy * 8) rshift lshift b vf =
        row_vf (mem (I + i)) (sbufx + sy * 8) rshift lshift d vf := by
      simp only [row_vf, hb _ (show sbufx + sy * 8 + 1 < 256 by omega),
        hb _ (show sbufx + sy * 8 < 256 by omega)]
    obtain ⟨b', hrun, h1, h2, h3⟩ := ih (i + 1) (sy + 1) _ _ _ d' vf' hb1 h
    have hhigh : ∀ (f : Nat → Nat) (j : Nat), 256 ≤ j →
        row_display (mem (I + i)) (sbufx + sy * 8) rshift lshift f j = f j := by
      intro f j hj
      have a1 : j ≠ sbufx + sy * 8 + 1 := by omega
      have a2 : j ≠ sbufx + sy * 8 := by omega
      simp only [row_display, a1, a2, if_false]
    refine ⟨b', ?_, h1, ?_, ?_⟩
    · rw [draw_rows_struct_succ _ _ _ _ _ _ _ _ _ _ (by omega) (by omega), hv1]
      exact hrun
    · intro j hj
      rw [h2 j hj, hhigh b j hj]
    · intro j hj
      rw [h3 j hj, hhigh d j hj]

theorem exec_D_struct_of_ok (x y n : Nat) (c c' : chip8) (h : exec_D x y n c = .ok c') :
    exec_D_struct x y n c = .ok c' := by
  simp only [exec_D, CHIP8_DISPLAY_WIDTH, CHIP8_DISPLAY_HEIGHT, CHIP8_DISPLAY_BUF_WIDTH,
    CHIP8_DISPLAY_BUF_HEIGHT, Nat.reduceMul] at h
  cases hr : draw_rows c.mem c.i (c.v x % 64 / 8) (c.v x % 64 % 8) (8 - c.v x % 64 % 8)
      (if n + c.v y % 32 > 32 then 32 - c.v y % 32 else n) 0 (c.v y % 32) c.display 0 with
  | error e => rw [hr] at h; simp at h
  | ok p =>
    obtain ⟨d', vf'⟩ := p
    rw [hr] at h
    simp only [Except.ok.injEq] at h
    have hb : ∀ j, j < 256 → display_bytes c.display c.keyboard j = c.display j := by
      intro j hj
      simp [display_bytes, hj]
    obtain ⟨b', hrun, h1, h2, h3⟩ :=
      draw_rows_struct_of_ok _ _ _ _ _ _ _ _ _ _ _ d' vf' hb hr
    simp only [exec_D_struct, CHIP8_DISPLAY_WIDTH, CHIP8_DISPLAY_HEIGHT,
      CHIP8_DISPLAY_BUF_WIDTH, CHIP8_DISPLAY_BUF_HEIGHT, CHIP8_DISPLAY_BUF_SIZE,
      Nat.reduceMul, hrun]
    rw [← h]
    have ed : (fun j => if j < 256 then b' j else c.display j) = d' := by
      funext j
      by_cases hj : j < 256
      · simp only [hj, if_true, h1 j hj]
      · simp only [hj, if_false, h3 j (by omega)]
    have ek : (fun k => b' (256 + k)) = c.keyboard := by
      funext k
      rw [h2 _ (by omega)]
      have : ¬ 256 + k < 256 := by omega
      simp [display_bytes, this]
    rw [ed, ek]

/-- Where `chip8_step` completes, `chip8_step_struct` completes with the same state. -/
theorem chip8_step_struct_of_ok (rnd : Nat) (s s' : chip8) (h : chip8_step rnd s = .ok s') :
    chip8_step_struct rnd s = .ok s' := by
  by_cases c1 : 4096 ≤ s.pc
  · simp [chip8_step, c1] at h
  by_cases c2 : 4096 ≤ (s.pc + 1) % 65536
  · simp [chip8_step, c1, c2] at h
  simp only [chip8_step, CHIP8_MEMORY_CAPACITY, c1, c2, if_false] at h
  simp only [chip8_step_struct, CHIP8_MEMORY_CAPACITY, c1, c2, if_false]
  by_cases hD : opcode_at s &&& 0xF000 = 0xD000
  · rw [chip8_exec_D _ _ _ hD] at h
    simp only [hD, if_true]
    exact exec_D_struct_of_ok _ _ _ _ _ h
  · simp only [hD, if_false]
    exact h

/-- One `Dxyn` step on the bytes of the struct, in terms of the row loop. -/
theorem draw_step_struct (rnd : Nat) (s : chip8) (x y n : Nat) (hx : x < 16) (hy : y < 16)
    (hn : n < 16) (hpc : s.pc + 1 < 4096)
    (hop : opcode_at s = 0xD000 + 256 * x + 16 * y + n)
    (b' : Nat → Nat) (vf' : Nat)
    (h : draw_rows_struct s.mem s.i (s.v x % 64 / 8) (s.v x % 64 % 8) (8 - s.v x % 64 % 8)
      (if n + s.v y % 32 > 32 then 32 - s.v y % 32 else n) 0 (s.v y % 32)
      (display_bytes s.display s.keyboard) 0 = .ok (b', vf')) :
    chip8_step_struct rnd s = .ok { tick { s with pc := s.pc + 2 } with
      v := Function.update s.v 0xF vf'
      display := fun j => if j < 256 then b' j else s.display j
      keyboard := fun k => b' (256 + k) } := by
  obtain ⟨d1, -, -, d4, d5, d6⟩ :=
    decode_fields 13 x y n (by omega) (by omega) (by omega) (by omega)
  have e : 4096 * 13 + 256 * x + 16 * y + n = opcode_at s := by omega
  rw [e] at d1 d4 d5 d6
  have h1 : (s.pc + 1) % 65536 = s.pc + 1 := by omega
  have h2 : (s.pc + 1 + 1) % 65536 = s.pc + 2 := by omega
  have h3 : ¬ 4096 ≤ s.pc := by omega
  have h4 : ¬ 4096 ≤ s.pc + 1 := by omega
  simp only [chip8_step_struct, CHIP8_MEMORY_CAPACITY, h1, h2, h3, h4, if_false, d1, if_true,
    d5, d6, Nat.shiftRight_zero, d4]
  simp only [exec_D_struct, tick, CHIP8_DISPLAY_WIDTH, CHIP8_DISPLAY_HEIGHT,
    CHIP8_DISPLAY_BUF_WIDTH, CHIP8_DISPLAY_BUF_HEIGHT, CHIP8_DISPLAY_BUF_SIZE, Nat.reduceMul, h]

theorem pixel_congr (f g : Nat → Nat) (p : Nat) (h : f (p / 8) = g (p / 8)) :
    pixel f p = pixel g p := by
  simp only [pixel, h]

theorem xor_shl8_mod_256 (a m : Nat) (ha : a < 256) : (a ^^^ (m <<< 8)) % 256 = a := by
  apply Nat.eq_of_testBit_eq
  intro j
  rw [testBit_mod_256, Nat.testBit_xor, Nat.testBit_shiftLeft]
  by_cases hj : j < 8
  · have : ¬ 8 ≤ j := by omega
    simp [hj, this]
  · simp [hj, testBit_byte_high a j ha (by omega)]

/-- The pixels of a row loop that completed with the per-row facts of the loop's
specification: bit `7 - c` of sprite row `r` is XORed into the linear pixel
`64 * (sy + r) + sx + c`, and every other pixel is kept. -/
theorem rows_pixels (mem : Nat → Nat) (I sx sy rows : Nat) (d d' : Nat → Nat)
    (hm : ∀ r, r < rows → mem (I + r) < 256)
    (hframe : ∀ j, (∀ r, r < rows → j ≠ sx / 8 + (sy + r) * 8 ∧ j ≠ sx / 8 + (sy + r) * 8 + 1) →
      d' j = d j)
    (hrow : ∀ r, r < rows →
      d' (sx / 8 + (sy + r) * 8) =
        (d (sx / 8 + (sy + r) * 8) ^^^ (mem (I + r) >>> (sx % 8))) % 256 ∧
      d' (sx / 8 + (sy + r) * 8 + 1) =
        (d (sx / 8 + (sy + r) * 8 + 1) ^^^ (mem (I + r) <<< (8 - sx % 8))) % 256) :
    (∀ r c, r < rows → c < 8 →
      pixel d' (64 * (sy + r) + sx + c) =
        (pixel d (64 * (sy + r) + sx + c) ^^ (mem (I + r)).testBit (7 - c))) ∧
    (∀ p, (∀ r c, r < rows → c < 8 → p ≠ 64 * (sy + r) + sx + c) → pixel d' p = pixel d p) := by
  have hidx : ∀ r c, 64 * (sy + r) + sx + c = 8 * (sx / 8 + (sy + r) * 8) + sx % 8 + c := by
    intro r c; omega
  constructor
  · intro r c hr hc
    rw [hidx]
    exact pixel_drawn _ _ _ c d d' (by omega) hc (hrow r hr).1 (hrow r hr).2
  · intro p hp
    by_cases ht : ∃ r, r < rows ∧
        (p / 8 = sx / 8 + (sy + r) * 8 ∨ p / 8 = sx / 8 + (sy + r) * 8 + 1)
    · obtain ⟨r, hr, h1 | h1⟩ := ht
      · have hlow : p % 8 < sx % 8 := by
          by_contra hge
          exact hp r (p % 8 - sx % 8) hr (by omega) (by omega)
        exact pixel_kept_first _ _ _ p d d' (hm r hr) h1 hlow (hrow r hr).1
      · have hhigh : sx % 8 ≤ p % 8 := by
          by_contra hlt
          exact hp r (8 + p % 8 - sx % 8) hr (by omega) (by omega)
        exact pixel_kept_second _ _ _ p d d' h1 hhigh (hrow r hr).2
    · have hnt : ∀ r, r < rows →
          p / 8 ≠ sx / 8 + (sy + r) * 8 ∧ p / 8 ≠ sx / 8 + (sy + r) * 8 + 1 := by
        intro r hr
        exact ⟨fun h1 => ht ⟨r, hr, Or.inl h1⟩, fun h1 => ht ⟨r, hr, Or.inr h1⟩⟩
      simp only [pixel, hframe _ hnt]

/-! ## The claims, concluded -/

/-- C6: for every display content, every sprite with `I + n <= 4096` and every `Dxyn` with
`x`, `y` different from `0xF`, at every origin, the positions where the sprite crosses the
right or the bottom edge included, executing the draw twice in a row completes and leaves
all 256 display bytes equal to their values before the first draw.  The steps are
`chip8_step_struct`: at an origin with `Vx mod 64 >= 56` whose rows reach row 31 the draw
indexes `display[256]`, on the struct the byte `keyboard[0]`, and the two draws restore that
byte as well.  Wherever no index leaves `display` (`Vx mod 64 < 56` or
`Vy mod 32 + n <= 31`) the same two states are the results of `chip8_step`.  The display
bytes and `keyboard[0]` are bytes (`u8`). -/
theorem draw_twice_restores (r1 r2 : Nat) (s : chip8) (x y n : Nat)
    (hx : x < 15) (hy : y < 15) (hn : n < 16)
    (hpc : s.pc + 3 < CHIP8_MEMORY_CAPACITY)
    (hop1 : opcode_at s = 0xD000 + 256 * x + 16 * y + n)
    (hop2 : opcode_at { s with pc := s.pc + 2 } = 0xD000 + 256 * x + 16 * y + n)
    (hI : s.i + n ≤ CHIP8_MEMORY_CAPACITY)
    (hd : ∀ k, k < CHIP8_DISPLAY_BUF_SIZE → s.display k < 256)
    (hk : s.keyboard 0 < 256) :
    ∃ s1 s2, chip8_step_struct r1 s = .ok s1 ∧ chip8_step_struct r2 s1 = .ok s2 ∧
      (∀ k, k < CHIP8_DISPLAY_BUF_SIZE → s2.display k = s.display k) ∧
      (∀ k, k < 16 → s2.keyboard k = s.keyboard k) ∧
      (s.v x % 64 < 56 ∨ s.v y % 32 + n ≤ 31 →
        chip8_step r1 s = .ok s1 ∧ chip8_step r2 s1 = .ok s2) := by
  simp only [CHIP8_MEMORY_CAPACITY, CHIP8_DISPLAY_BUF_SIZE, CHIP8_DISPLAY_BUF_WIDTH,
    CHIP8_DISPLAY_BUF_HEIGHT, Nat.reduceMul] at hpc hI hd ⊢
  obtain ⟨rows, hrows⟩ : ∃ rows, rows = if n + s.v y % 32 > 32 then 32 - s.v y % 32 else n :=
    ⟨_, rfl⟩
  have hr1 : rows ≤ n := by rw [hrows]; split_ifs <;> omega
  have hr2 : s.v y % 32 + rows ≤ 32 := by rw [hrows]; split_ifs <;> omega
  have hb : s.v x % 64 / 8 ≤ 7 := by omega
  have hx15 : x ≠ 15 := by omega
  have hy15 : y ≠ 15 := by omega
  obtain ⟨ba, va, hrun1, hframe1, hrow1, -, -, -⟩ :=
    draw_rows_struct_spec s.mem s.i (s.v x % 64 / 8) (s.v x % 64 % 8) (8 - s.v x % 64 % 8) rows
      0 (s.v y % 32) (display_bytes s.display s.keyboard) 0 hr2 (by omega) hb
  obtain ⟨bb, vb, hrun2, hframe2, hrow2, -, -, -⟩ :=
    draw_rows_struct_spec s.mem s.i (s.v x % 64 / 8) (s.v x % 64 % 8) (8 - s.v x % 64 % 8) rows
      0 (s.v y % 32) ba 0 hr2 (by omega) hb
  simp only [Nat.add_zero] at hrow1 hrow2
  have hB : ∀ j, j < 256 → display_bytes s.display s.keyboard j = s.display j := by
    intro j hj
    simp [display_bytes, hj]
  have hBk : ∀ k, display_bytes s.display s.keyboard (256 + k) = s.keyboard k := by
    intro k
    have : ¬ 256 + k < 256 := by omega
    simp [display_bytes, this]
  have hBlt : ∀ j, j ≤ 256 → display_bytes s.display s.keyboard j < 256 := by
    intro j hj
    by_cases h : j < 256
    · rw [hB j h]; exact hd j h
    · have : j = 256 + 0 := by omega
      rw [this, hBk]; exact hk
  have hba : display_bytes (fun j => if j < 256 then ba j else s.display j)
      (fun k => ba (256 + k)) = ba := by
    funext j
    by_cases hj : j < 256
    · simp [display_bytes, hj]
    · have : 256 + (j - 256) = j := by omega
      simp [display_bytes, hj, this]
  have e1 := draw_step_struct r1 s x y n (by omega) (by omega) hn (by omega) hop1 ba va
    (by rw [← hrows]; exact hrun1)
  have e2 := draw_step_struct r2
    { tick { s with pc := s.pc + 2 } with
      v := Function.update s.v 0xF va
      display := fun j => if j < 256 then ba j else s.display j
      keyboard := fun k => ba (256 + k) }
    x y n (by omega) (by omega) hn (by simp only [tick]; omega)
    (by simpa [opcode_at, tick] using hop2) bb vb
    (by
      simp only [tick, Function.update_noteq hx15, Function.update_noteq hy15, ← hrows, hba]
      exact hrun2)
  have hback : ∀ j, j ≤ 256 → bb j = display_bytes s.display s.keyboard j := by
    intro j hj
    by_cases ht : ∃ r, r < rows ∧
        (j = s.v x % 64 / 8 + (s.v y % 32 + r) * 8 ∨
         j = s.v x % 64 / 8 + (s.v y % 32 + r) * 8 + 1)
    · obtain ⟨r, hr, h1 | h1⟩ := ht
      · rw [h1, (hrow2 r hr).1, (hrow1 r hr).1]
        exact xor_twice_mod_256 _ _ (hBlt _ (by omega))
      · rw [h1, (hrow2 r hr).2, (hrow1 r hr).2]
        exact xor_twice_mod_256 _ _ (hBlt _ (by omega))
    · have hnt : ∀ r, r < rows → j ≠ s.v x % 64 / 8 + (s.v y % 32 + r) * 8 ∧
          j ≠ s.v x % 64 / 8 + (s.v y % 32 + r) * 8 + 1 := by
        intro r hr
        exact ⟨fun h1 => ht ⟨r, hr, Or.inl h1⟩, fun h1 => ht ⟨r, hr, Or.inr h1⟩⟩
      rw [hframe2 j hnt, hframe1 j hnt]
  have hfar : ∀ j, 256 < j → bb j = display_bytes s.display s.keyboard j := by
    intro j hj
    have hnt : ∀ r, r < rows → j ≠ s.v x % 64 / 8 + (s.v y % 32 + r) * 8 ∧
        j ≠ s.v x % 64 / 8 + (s.v y % 32 + r) * 8 + 1 := by
      intro r hr
      constructor <;> omega
    rw [hframe2 j hnt, hframe1 j hnt]
  refine ⟨_, _, e1, e2, ?_, ?_, ?_⟩
  · intro k hk256
    show (if k < 256 then bb k else _) = s.display k
    simp only [hk256, if_true]
    rw [hback k (by omega), hB k hk256]
  · intro k _
    show bb (256 + k) = s.keyboard k
    rw [← hBk k]
    by_cases h0 : k = 0
    · subst h0; exact hback _ (by omega)
    · exact hfar _ (by omega)
  · intro hin
    obtain ⟨rows', t1, t2, -, f1, f2, -⟩ :=
      two_draws r1 r2 s x y n hx hy hn hpc hop1 hop2 hI hin
    have g1 := chip8_step_struct_of_ok r1 s t1 f1
    rw [e1] at g1
    have g1' := Except.ok.inj g1
    rw [← g1'] at f1 f2
    have g2 := chip8_step_struct_of_ok r2 _ t2 f2
    rw [e2] at g2
    have g2' := Except.ok.inj g2
    rw [← g2'] at f2
    exact ⟨f1, f2⟩

/-- C6 on `last_byte_state`, the origin `(60, 31)` with the sprite byte `0xFF`: the first
draw leaves `display[255] = 0x0F` and writes the other half, `0xF0`, to `keyboard[0]`; the
hypotheses hold and the second draw restores the display and the keyboard. -/
theorem draw_twice_restores_witness :
    chip8_run [0, 0, 0] (boot last_byte_rom) = .ok last_byte_state ∧
    opcode_at last_byte_state = 0xD000 + 256 * 0 + 16 * 1 + 1 ∧
    last_byte_state.v 0 % 64 = 60 ∧ last_byte_state.v 1 % 32 = 31 ∧
    (∃ s1, chip8_step_struct 0 last_byte_state = .ok s1 ∧
      s1.display 255 = 0x0F ∧ s1.keyboard 0 = 0xF0) ∧
    ∃ s1 s2, chip8_step_struct 0 last_byte_state = .ok s1 ∧
      chip8_step_struct 0 s1 = .ok s2 ∧
      (∀ k, k < CHIP8_DISPLAY_BUF_SIZE → s2.display k = last_byte_state.display k) ∧
      (∀ k, k < 16 → s2.keyboard k = last_byte_state.keyboard k) ∧
      (last_byte_state.v 0 % 64 < 56 ∨ last_byte_state.v 1 % 32 + 1 ≤ 31 →
        chip8_step 0 last_byte_state = .ok s1 ∧ chip8_step 0 s1 = .ok s2) :=
  ⟨rfl, rfl, rfl, rfl, ⟨_, rfl, rfl, rfl⟩,
    draw_twice_restores 0 0 last_byte_state 0 1 1 (by decide) (by decide) (by decide)
      (by decide) rfl rfl (by decide) (fun _ _ => show (0 : Nat) < 256 by decide) (by decide)⟩

/-- C21, as stated, fails: two steps into `over_rom` the origin is `(60, 0)`; the draw of
the sprite byte `0x0F`, whose set bits belong to the columns `64..67`, completes and lights
pixel `(0, 1)`, a pixel in a column below `sx` on row `sy + 1`, which was off: the part of
the row past the right edge is XORed into the start of the next row, not dropped. -/
theorem draw_wraps_into_next_row :
    chip8_run [0, 0] (boot over_rom) = .ok over_state ∧
    opcode_at over_state = 0xD011 ∧
    over_state.v 0 % 64 = 60 ∧ over_state.v 1 % 32 = 0 ∧
    pixel over_state.display (64 * 1 + 0) = false ∧
    ∃ s', chip8_step 0 over_state = .ok s' ∧ pixel s'.display (64 * 1 + 0) = true :=
  ⟨rfl, rfl, rfl, rfl, rfl, _, rfl, rfl⟩

/-- C21, amended: for every `Dxyn` with `sx = Vx mod 64 > 56`, `sy = Vy mod 32`, rows above
the last row (`sy + n <= 31`) and `I + n <= 4096`, the step completes; bit `7 - c` of sprite
row `r` is XORed into pixel `(sx + c, sy + r)` when `sx + c < 64` and into pixel
`(sx + c - 64, sy + r + 1)`, at the start of the next row, when `sx + c >= 64`; every other
pixel is unchanged, so columns `sx - 56 .. sx - 1` are unchanged in every row and columns
`0 .. sx - 57` change only in rows `sy + 1 .. sy + n`.  Pixel `(col, row)` is
`pixel display (64 * row + col)`, see `pixel_col_row`. -/
theorem draw_right_edge_wraps (rnd : Nat) (s : chip8) (x y n : Nat)
    (hx : x < 16) (hy : y < 16) (hn : n < 16)
    (hpc : s.pc + 1 < CHIP8_MEMORY_CAPACITY)
    (hop : opcode_at s = 0xD000 + 256 * x + 16 * y + n)
    (hI : s.i + n ≤ CHIP8_MEMORY_CAPACITY)
    (hm : ∀ r, r < n → s.mem (s.i + r) < 256)
    (hsx : 56 < s.v x % 64) (hrow : s.v y % 32 + n ≤ 31) :
    ∃ s', chip8_step rnd s = .ok s' ∧
      (∀ r c, r < n → c < 8 → s.v x % 64 + c < 64 →
        pixel s'.display (64 * (s.v y % 32 + r) + (s.v x % 64 + c)) =
          (pixel s.display (64 * (s.v y % 32 + r) + (s.v x % 64 + c)) ^^
            (s.mem (s.i + r)).testBit (7 - c))) ∧
      (∀ r c, r < n → c < 8 → 64 ≤ s.v x % 64 + c →
        pixel s'.display (64 * (s.v y % 32 + r + 1) + (s.v x % 64 + c - 64)) =
          (pixel s.display (64 * (s.v y % 32 + r + 1) + (s.v x % 64 + c - 64)) ^^
            (s.mem (s.i + r)).testBit (7 - c))) ∧
      (∀ col row, col < 64 →
        ¬ (s.v x % 64 ≤ col ∧ s.v y % 32 ≤ row ∧ row < s.v y % 32 + n) →
        ¬ (col + 64 < s.v x % 64 + 8 ∧ s.v y % 32 + 1 ≤ row ∧ row < s.v y % 32 + 1 + n) →
        pixel s'.display (64 * row + col) = pixel s.display (64 * row + col)) := by
  simp only [CHIP8_MEMORY_CAPACITY] at hpc hI
  obtain ⟨s', e, hdrawn, hkept, -⟩ :=
    draw_step_pixels rnd s x y n hx hy hn hpc hop hI hm (Or.inr hrow)
  have hmin : min n (32 - s.v y % 32) = n := by omega
  rw [hmin] at hdrawn hkept
  refine ⟨s', e, ?_, ?_, ?_⟩
  · intro r c hr hc _
    have ei : 64 * (s.v y % 32 + r) + (s.v x % 64 + c) =
        64 * (s.v y % 32 + r) + s.v x % 64 + c := by omega
    rw [ei]
    exact hdrawn r c hr hc
  · intro r c hr hc hge
    have ei : 64 * (s.v y % 32 + r + 1) + (s.v x % 64 + c - 64) =
        64 * (s.v y % 32 + r) + s.v x % 64 + c := by omega
    rw [ei]
    exact hdrawn r c hr hc
  · intro col row hcol h1 h2
    apply hkept
    intro r c hr hc heq
    by_cases hlt : s.v x % 64 + c < 64
    · exact h1 ⟨by omega, by omega, by omega⟩
    · exact h2 ⟨by omega, by omega, by omega⟩

/-- C21, amended, on `over_state`, the origin `(60, 0)` with one sprite row: the hypotheses
hold and the pixels change as stated. -/
theorem draw_right_edge_wraps_witness :
    56 < over_state.v 0 % 64 ∧ over_state.v 1 % 32 + 1 ≤ 31 ∧
    ∃ s', chip8_step 0 over_state = .ok s' ∧
      (∀ r c, r < 1 → c < 8 → over_state.v 0 % 64 + c < 64 →
        pixel s'.display (64 * (over_state.v 1 % 32 + r) + (over_state.v 0 % 64 + c)) =
          (pixel over_state.display
              (64 * (over_state.v 1 % 32 + r) + (over_state.v 0 % 64 + c)) ^^
            (over_state.mem (over_state.i + r)).testBit (7 - c))) ∧
      (∀ r c, r < 1 → c < 8 → 64 ≤ over_state.v 0 % 64 + c →
        pixel s'.display (64 * (over_state.v 1 % 32 + r + 1) + (over_state.v 0 % 64 + c - 64)) =
          (pixel over_state.display
              (64 * (over_state.v 1 % 32 + r + 1) + (over_state.v 0 % 64 + c - 64)) ^^
            (over_state.mem (over_state.i + r)).testBit (7 - c))) ∧
      (∀ col row, col < 64 →
        ¬ (over_state.v 0 % 64 ≤ col ∧ over_state.v 1 % 32 ≤ row ∧
            row < over_state.v 1 % 32 + 1) →
        ¬ (col + 64 < over_state.v 0 % 64 + 8 ∧ over_state.v 1 % 32 + 1 ≤ row ∧
            row < over_state.v 1 % 32 + 1 + 1) →
        pixel s'.display (64 * row + col) = pixel over_state.display (64 * row + col)) :=
  ⟨by decide, by decide,
    draw_right_edge_wraps 0 over_state 0 1 1 (by decide) (by decide) (by decide) (by decide)
      rfl (by decide) (by decide) (by decide) (by decide)⟩

/-- C22: for every display content and every `Dxyn` with `sx = Vx mod 64 <= 56`,
`sy = Vy mod 32`, `I + n <= 4096` and `h = min(n, 32 - sy)`, the step completes; the pixel
at column `sx + c`, row `sy + r` (`c < 8`, `r < h`) equals its old value XOR bit `7 - c` of
`mem[I + r]`; every other pixel is unchanged; and `v[0xF]` is `1` if some such pixel was set
before the draw while its sprite bit is set, and `0` otherwise.  Pixel `(col, row)` is
`pixel display (64 * row + col)`, which is bit `7 - col mod 8` of
`display[row * 8 + col / 8]` by `pixel_col_row`.  The step is `chip8_step_struct`: with
`sx = 56` on row 31 the draw indexes `display[256]`, on the struct the byte `keyboard[0]`,
where the half `sprite << 8` meets no bit and changes none, so the keyboard is unchanged.
Wherever no index leaves `display` (`sx < 56` or `sy + n <= 31`) the same state is the
result of `chip8_step`.  The sprite bytes, the display bytes and `keyboard[0]` are bytes
(`u8`). -/
theorem draw_pixels (rnd : Nat) (s : chip8) (x y n : Nat)
    (hx : x < 16) (hy : y < 16) (hn : n < 16)
    (hpc : s.pc + 1 < CHIP8_MEMORY_CAPACITY)
    (hop : opcode_at s = 0xD000 + 256 * x + 16 * y + n)
    (hI : s.i + n ≤ CHIP8_MEMORY_CAPACITY)
    (hm : ∀ r, r < n → s.mem (s.i + r) < 256)
    (hd : ∀ k, k < CHIP8_DISPLAY_BUF_SIZE → s.display k < 256)
    (hk : s.keyboard 0 < 256)
    (hsx : s.v x % 64 ≤ 56) :
    ∃ s', chip8_step_struct rnd s = .ok s' ∧
      (∀ r c, r < min n (32 - s.v y % 32) → c < 8 →
        pixel s'.display (64 * (s.v y % 32 + r) + (s.v x % 64 + c)) =
          (pixel s.display (64 * (s.v y % 32 + r) + (s.v x % 64 + c)) ^^
            (s.mem (s.i + r)).testBit (7 - c))) ∧
      (∀ col row, col < 64 →
        ¬ (s.v x % 64 ≤ col ∧ col < s.v x % 64 + 8 ∧
            s.v y % 32 ≤ row ∧ row < s.v y % 32 + min n (32 - s.v y % 32)) →
        pixel s'.display (64 * row + col) = pixel s.display (64 * row + col)) ∧
      ((∃ r c, r < min n (32 - s.v y % 32) ∧ c < 8 ∧
          pixel s.display (64 * (s.v y % 32 + r) + (s.v x % 64 + c)) = true ∧
          (s.mem (s.i + r)).testBit (7 - c) = true) → s'.v 0xF = 1) ∧
      ((¬ ∃ r c, r < min n (32 - s.v y % 32) ∧ c < 8 ∧
          pixel s.display (64 * (s.v y % 32 + r) + (s.v x % 64 + c)) = true ∧
          (s.mem (s.i + r)).testBit (7 - c) = true) → s'.v 0xF = 0) ∧
      (∀ k, k < 16 → s'.keyboard k = s.keyboard k) ∧
      (s.v x % 64 < 56 ∨ s.v y % 32 + n ≤ 31 → chip8_step rnd s = .ok s') := by
  simp only [CHIP8_MEMORY_CAPACITY, CHIP8_DISPLAY_BUF_SIZE, CHIP8_DISPLAY_BUF_WIDTH,
    CHIP8_DISPLAY_BUF_HEIGHT, Nat.reduceMul] at hpc hI hd
  have hrows : (if n + s.v y % 32 > 32 then 32 - s.v y % 32 else n) = min n (32 - s.v y % 32) := by
    split_ifs <;> omega
  have hsy : s.v y % 32 < 32 := Nat.mod_lt _ (by norm_num)
  obtain ⟨b', vf', hdr, hframe, hrow, -, hcol, hquiet⟩ :=
    draw_rows_struct_spec s.mem s.i (s.v x % 64 / 8) (s.v x % 64 % 8) (8 - s.v x % 64 % 8)
      (min n (32 - s.v y % 32)) 0 (s.v y % 32) (display_bytes s.display s.keyboard) 0
      (by omega) (by omega) (by omega)
  simp only [Nat.add_zero] at hrow hcol hquiet
  have hB : ∀ j, j < 256 → display_bytes s.display s.keyboard j = s.display j := by
    intro j hj
    simp [display_bytes, hj]
  have hBk : ∀ k, display_bytes s.display s.keyboard (256 + k) = s.keyboard k := by
    intro k
    have : ¬ 256 + k < 256 := by omega
    simp [display_bytes, this]
  have hBlt : ∀ j, j ≤ 256 → display_bytes s.display s.keyboard j < 256 := by
    intro j hj
    by_cases h : j < 256
    · rw [hB j h]; exact hd j h
    · have : j = 256 + 0 := by omega
      rw [this, hBk]; exact hk
  obtain ⟨hdrawn, hkept⟩ := rows_pixels s.mem s.i (s.v x % 64) (s.v y % 32)
    (min n (32 - s.v y % 32)) (display_bytes s.display s.keyboard) b'
    (fun r hr => hm r (by omega)) hframe hrow
  have hidx : ∀ r c, 64 * (s.v y % 32 + r) + s.v x % 64 + c =
      8 * (s.v x % 64 / 8 + (s.v y % 32 + r) * 8) + s.v x % 64 % 8 + c := by
    intro r c; omega
  have hcoll : ∀ r, r < min n (32 - s.v y % 32) →
      ((display_bytes s.display s.keyboard (s.v x % 64 / 8 + (s.v y % 32 + r) * 8) &&&
          (s.mem (s.i + r) >>> (s.v x % 64 % 8)) ≠ 0 ∨
        display_bytes s.display s.keyboard (s.v x % 64 / 8 + (s.v y % 32 + r) * 8 + 1) &&&
          (s.mem (s.i + r) <<< (8 - s.v x % 64 % 8)) ≠ 0) ↔
      ∃ c, c < 8 ∧ pixel s.display (64 * (s.v y % 32 + r) + (s.v x % 64 + c)) = true ∧
        (s.mem (s.i + r)).testBit (7 - c) = true) := by
    intro r hr
    have e := collision_iff_pixels (s.mem (s.i + r)) (s.v x % 64 / 8 + (s.v y % 32 + r) * 8)
      (s.v x % 64 % 8) (display_bytes s.display s.keyboard) (by omega) (hm r (by omega))
      (hBlt _ (by omega))
    rw [e]
    constructor
    · rintro ⟨c, hc, hp, hb⟩
      refine ⟨c, hc, ?_, hb⟩
      rw [← hp, ← Nat.add_assoc, hidx]
      exact pixel_congr _ _ _ (hB _ (by omega)).symm
    · rintro ⟨c, hc, hp, hb⟩
      refine ⟨c, hc, ?_, hb⟩
      rw [← hp, ← Nat.add_assoc, hidx]
      exact pixel_congr _ _ _ (hB _ (by omega))
  rw [← hrows] at hdr
  have e := draw_step_struct rnd s x y n hx hy hn hpc hop b' vf' hdr
  refine ⟨_, e, ?_, ?_, ?_, ?_, ?_, ?_⟩
  · intro r c hr hc
    rw [← Nat.add_assoc]
    have a1 : pixel (fun j => if j < 256 then b' j else s.display j)
        (64 * (s.v y % 32 + r) + s.v x % 64 + c) =
        pixel b' (64 * (s.v y % 32 + r) + s.v x % 64 + c) :=
      pixel_congr _ _ _ (by simp only [show (64 * (s.v y % 32 + r) + s.v x % 64 + c) / 8 < 256
        by omega, if_true])
    have a2 : pixel s.display (64 * (s.v y % 32 + r) + s.v x % 64 + c) =
        pixel (display_bytes s.display s.keyboard) (64 * (s.v y % 32 + r) + s.v x % 64 + c) :=
      pixel_congr _ _ _ (hB _ (by omega)).symm
    show pixel (fun j => if j < 256 then b' j else s.display j) _ = _
    rw [a1, a2]
    exact hdrawn r c hr hc
  · intro col row hcol' h1
    show pixel (fun j => if j < 256 then b' j else s.display j) _ = _
    by_cases hrow32 : row < 32
    · have a1 : pixel (fun j => if j < 256 then b' j else s.display j) (64 * row + col) =
          pixel b' (64 * row + col) :=
        pixel_congr _ _ _ (by simp only [show (64 * row + col) / 8 < 256 by omega, if_true])
      have a2 : pixel s.display (64 * row + col) =
          pixel (display_bytes s.display s.keyboard) (64 * row + col) :=
        pixel_congr _ _ _ (hB _ (by omega)).symm
      rw [a1, a2]
      apply hkept
      intro r c hr hc heq
      exact h1 ⟨by omega, by omega, by omega, by omega⟩
    · exact pixel_congr _ _ _ (by simp only [show ¬ (64 * row + col) / 8 < 256 by omega,
        if_false])
  · rintro ⟨r, c, hr, hc, hp, hb⟩
    show Function.update s.v 0xF vf' 0xF = 1
    rw [Function.update_same]
    exact hcol ⟨r, hr, (hcoll r hr).2 ⟨c, hc, hp, hb⟩⟩
  · intro hno
    show Function.update s.v 0xF vf' 0xF = 0
    rw [Function.update_same]
    apply hquiet
    intro r hr
    have h0 := (not_congr (hcoll r hr)).2 (fun ⟨c, hc, hp, hb⟩ => hno ⟨r, c, hr, hc, hp, hb⟩)
    rw [not_or, not_not, not_not] at h0
    exact h0
  · intro k hk16
    show b' (256 + k) = s.keyboard k
    rw [← hBk k]
    by_cases ht : ∃ r, r < min n (32 - s.v y % 32) ∧
        256 + k = s.v x % 64 / 8 + (s.v y % 32 + r) * 8 + 1
    · obtain ⟨r, hr, h1⟩ := ht
      have hr0 : s.v x % 64 % 8 = 0 := by omega
      rw [h1, (hrow r hr).2, hr0]
      exact xor_shl8_mod_256 _ _ (hBlt _ (by omega))
    · apply hframe
      intro r hr
      constructor
      · omega
      · intro h1; exact ht ⟨r, hr, h1⟩
  · intro hin
    obtain ⟨s'', e'', -⟩ := draw_step_pixels rnd s x y n hx hy hn hpc hop hI hm hin
    have e2 := chip8_step_struct_of_ok rnd s s'' e''
    rw [e] at e2
    rw [e'', ← e2]

/-- C22 on `corner_state`, three steps into `corner_rom`: the origin `(56, 31)` with the
sprite byte `0xFF` on a dark display; the draw leaves `display[255] = 0xFF`,
`keyboard[0] = 0` and `v[0xF] = 0`, the hypotheses hold and the pixels and `v[0xF]` are as
stated. -/
theorem draw_pixels_witness :
    chip8_run [0, 0, 0] (boot corner_rom) = .ok corner_state ∧
    opcode_at corner_state = 0xD000 + 256 * 0 + 16 * 1 + 1 ∧
    corner_state.v 0 % 64 = 56 ∧ corner_state.v 1 % 32 = 31 ∧
    (∃ s', chip8_step_struct 0 corner_state = .ok s' ∧
      s'.display 255 = 0xFF ∧ s'.keyboard 0 = 0 ∧ s'.v 0xF = 0) ∧
    ∃ s', chip8_step_struct 0 corner_state = .ok s' ∧
      (∀ r c, r < min 1 (32 - corner_state.v 1 % 32) → c < 8 →
        pixel s'.display (64 * (corner_state.v 1 % 32 + r) + (corner_state.v 0 % 64 + c)) =
          (pixel corner_state.display
              (64 * (corner_state.v 1 % 32 + r) + (corner_state.v 0 % 64 + c)) ^^
            (corner_state.mem (corner_state.i + r)).testBit (7 - c))) ∧
      (∀ col row, col < 64 →
        ¬ (corner_state.v 0 % 64 ≤ col ∧ col < corner_state.v 0 % 64 + 8 ∧
            corner_state.v 1 % 32 ≤ row ∧
            row < corner_state.v 1 % 32 + min 1 (32 - corner_state.v 1 % 32)) →
        pixel s'.display (64 * row + col) = pixel corner_state.display (64 * row + col)) ∧
      ((∃ r c, r < min 1 (32 - corner_state.v 1 % 32) ∧ c < 8 ∧
          pixel corner_state.display
            (64 * (corner_state.v 1 % 32 + r) + (corner_state.v 0 % 64 + c)) = true ∧
          (corner_state.mem (corner_state.i + r)).testBit (7 - c) = true) → s'.v 0xF = 1) ∧
      ((¬ ∃ r c, r < min 1 (32 - corner_state.v 1 % 32) ∧ c < 8 ∧
          pixel corner_state.display
            (64 * (corner_state.v 1 % 32 + r) + (corner_state.v 0 % 64 + c)) = true ∧
          (corner_state.mem (corner_state.i + r)).testBit (7 - c) = true) → s'.v 0xF = 0) ∧
      (∀ k, k < 16 → s'.keyboard k = corner_state.keyboard k) ∧
      (corner_state.v 0 % 64 < 56 ∨ corner_state.v 1 % 32 + 1 ≤ 31 →
        chip8_step 0 corner_state = .ok s') :=
  ⟨rfl, rfl, rfl, rfl, ⟨_, rfl, rfl, rfl, rfl⟩,
    draw_pixels 0 corner_state 0 1 1 (by decide) (by decide) (by decide) (by decide)
      rfl (by decide) (by decide) (fun _ _ => show (0 : Nat) < 256 by decide) (by decide)
      (by decide)⟩

/-- C23: for `8xy4` with `y = 0xF` and `x` different from `0xF`, with pre-step values `Vx`
and `F = v[0xF]`, the step completes with `v[0xF] = c` and `v[x] = (Vx + c) mod 256`, where
`c = 1` if `Vx + F > 255` and `0` otherwise: the value added is the freshly written carry. -/
theorem add_8xy4_flag_operand (rnd : Nat) (s : chip8) (x : Nat) (hx : x < 15)
    (hpc : s.pc + 1 < CHIP8_MEMORY_CAPACITY)
    (hop : opcode_at s = 0x8004 + 256 * x + 16 * 0xF)
    (hvx : s.v x < 256) :
    ∃ s', chip8_step rnd s = .ok s' ∧
      s'.v 0xF = (if s.v x + s.v 0xF > 255 then 1 else 0) ∧
      s'.v x = (s.v x + (if s.v x + s.v 0xF > 255 then 1 else 0)) % 256 := by
  obtain ⟨d1, -, -, d4, d5, d6⟩ :=
    decode_fields 8 x 15 4 (by omega) (by omega) (by omega) (by omega)
  have e : 4096 * 8 + 256 * x + 16 * 15 + 4 = opcode_at s := by omega
  rw [e] at d1 d4 d5 d6
  have hx15 : x ≠ 15 := by omega
  have hxF : (15 : Nat) ≠ x := by omega
  have hc : (255 - s.v x < s.v 15) ↔ (s.v x + s.v 15 > 255) := by omega
  refine ⟨_, by rw [chip8_step_eq rnd s hpc, chip8_exec_8 _ _ _ d1, d5, d6], ?_, ?_⟩
  · simp [exec_8, d4, tick, Function.update, hx15, hxF, hc]
  · simp [exec_8, d4, tick, Function.update, hx15, hxF, hc]

/-- C23 on `carry_state`, `ADD V1, VF` with `V1 = 200` and `VF = 100`: the carry is `1` and
`V1` becomes `201`, not `(200 + 100) mod 256 = 44`. -/
theorem add_8xy4_flag_operand_witness :
    opcode_at carry_state = 0x8004 + 256 * 1 + 16 * 0xF ∧
    carry_state.v 1 = 200 ∧ carry_state.v 0xF = 100 ∧
    ∃ s', chip8_step 0 carry_state = .ok s' ∧
      s'.v 0xF = (if carry_state.v 1 + carry_state.v 0xF > 255 then 1 else 0) ∧
      s'.v 1 = (carry_state.v 1 +
        (if carry_state.v 1 + carry_state.v 0xF > 255 then 1 else 0)) % 256 :=
  ⟨rfl, rfl, rfl, add_8xy4_flag_operand 0 carry_state 1 (by decide) (by decide) rfl (by decide)⟩

end Chip8
